import Mathlib

set_option maxHeartbeats 1000000

/-!
Verification development for the libps lexical scanner.

The scanner (`ReadToken` and its sub-scanners in the `interpret` package)
is embedded as pure functions over the remaining input, modelled as the
list of Unicode codepoints (`Rune` = `Nat`) obtained by decoding a
well-formed UTF-8 source; `bufio.Reader.ReadRune` then reads the head of
the list.  `ReadToken` returns a `Token` together with the remaining
input, or the end-of-input signal (`io.EOF` reaching the caller), or a
syntax error, or a crash (a Go runtime panic, e.g. an out-of-range index).

The cursor primitive `runes.Reader.PeekRunes` is additionally embedded at
the byte level (lists of bytes, `utf8` decoding as in Go's `unicode/utf8`,
`bufio.Reader.Peek` with its 4096-byte buffer) because its behaviour on
short inputs depends on the byte-level peek loop.
-/

/-- The seven delimiter codepoints used throughout the scanner:
NUL, space, tab, CR, LF, backspace, form-feed. -/
def isDelim (c : Nat) : Bool :=
  decide (c = 0) || decide (c = 32) || decide (c = 9) || decide (c = 13) ||
  decide (c = 10) || decide (c = 8) || decide (c = 12)

/-- Decimal digit `0`–`9`. -/
def isDigit (c : Nat) : Bool := decide (48 ≤ c) && decide (c ≤ 57)

/-- Octal digit `0`–`7`. -/
def isOctalDigit (c : Nat) : Bool := decide (48 ≤ c) && decide (c ≤ 55)

/-- Hex digit `0`–`9`, `a`–`f`, `A`–`F` (the case set of `readHexString`). -/
def isHexDigit (c : Nat) : Bool :=
  isDigit c || (decide (97 ≤ c) && decide (c ≤ 102)) || (decide (65 ≤ c) && decide (c ≤ 70))

/-- Alphanumeric `0`–`9`, `a`–`z`, `A`–`Z` (the case set of `readRadix`). -/
def isAlnum (c : Nat) : Bool :=
  isDigit c || (decide (97 ≤ c) && decide (c ≤ 122)) || (decide (65 ≤ c) && decide (c ≤ 90))

/-- `TokenType` constants of the `interpret` package. -/
inductive TokenType where
  | unknownTok
  | intTok
  | realTok
  | radixTok
  | litStringTok
  | hexStringTok
  | base85StringTok
  | nameTok
deriving DecidableEq, Repr

/-- A `Token`: a type tag and the accumulated rune buffer (Go runes are
int32 codepoints; every value arising here is nonnegative, so runes are
modelled as `Nat`). -/
structure Token where
  type : TokenType
  value : List Nat
deriving DecidableEq, Repr

/-- The observable outcome of one `ReadToken` call.
`ok t rest` is a successful token with the rest of the input;
`eofSignal` is the `io.EOF` value reaching the caller (the clean
end-of-input signal, also produced when `io.EOF` is propagated from
inside a sub-scanner); `synError` is a `*ScanError` with its message
(`detail` holds the runes interpolated by `NewSyntaxErrorf`, empty for the
fixed messages); `crash` is a Go runtime panic (index out of range). -/
inductive ScanResult where
  | ok (t : Token) (rest : List Nat)
  | eofSignal
  | synError (msg : String) (detail : List Nat)
  | crash
deriving DecidableEq, Repr

/-- `readName`: append codepoints until a delimiter or end-of-input. -/
def readName (acc : List Nat) (input : List Nat) : ScanResult :=
  match input with
  | [] => .ok ⟨.nameTok, acc⟩ []
  | c :: rest =>
    if isDelim c then .ok ⟨.nameTok, acc⟩ rest
    else readName (acc ++ [c]) rest

/-- `readRadix`: the radix sub-scanner.  Each iteration first reads the last
accumulated character (a panic when the buffer is empty, which no caller
triggers), then reads a rune. -/
def readRadix (acc : List Nat) (input : List Nat) : ScanResult :=
  match acc.getLast? with
  | none => .crash
  | some l =>
    match input with
    | [] =>
      if l = 35 then .synError "unexpected end of radix number" []
      else .ok ⟨.radixTok, acc⟩ []
    | c :: rest =>
      if isDelim c then
        if l = 35 then .synError "unexpected end of radix number" []
        else .ok ⟨.radixTok, acc⟩ rest
      else if isAlnum c then readRadix (acc ++ [c]) rest
      else readName (acc ++ [c]) rest

/-- `readReal`: the real sub-scanner.  `hasTrailingExponent` is recomputed
from the accumulated buffer each iteration.  The second-exponent and
misplaced-minus branches hand off to `readName` without appending the
character that was just consumed. -/
def readReal (acc : List Nat) (input : List Nat) : ScanResult :=
  match acc.getLast? with
  | none => .crash
  | some l =>
    let hte : Bool := decide (l = 101) || decide (l = 69)
    match input with
    | [] =>
      if hte then .synError "unexpected end of real number" []
      else .ok ⟨.realTok, acc⟩ []
    | c :: rest =>
      if isDelim c then
        if hte then .synError "unexpected end of real number" []
        else .ok ⟨.realTok, acc⟩ rest
      else if c = 101 ∨ c = 69 then
        if acc.contains 101 || acc.contains 69 then readName acc rest
        else readReal (acc ++ [c]) rest
      else if c = 45 then
        if hte then readReal (acc ++ [c]) rest
        else readName acc rest
      else if isDigit c then readReal (acc ++ [c]) rest
      else readName (acc ++ [c]) rest

/-- `readNumeric`: the integer sub-scanner; hands off to `readReal` on `.`,
to `readRadix` on `#` (an error if the buffer starts with `-`, a panic if
it is empty), and to `readName` on any other non-delimiter. -/
def readNumeric (acc : List Nat) (input : List Nat) : ScanResult :=
  match input with
  | [] => .ok ⟨.intTok, acc⟩ []
  | c :: rest =>
    if isDelim c then .ok ⟨.intTok, acc⟩ rest
    else if isDigit c then readNumeric (acc ++ [c]) rest
    else if c = 46 then readReal (acc ++ [c]) rest
    else if c = 35 then
      match acc.head? with
      | none => .crash
      | some h =>
        if h = 45 then .synError "radix number cannot have a negative base" []
        else readRadix (acc ++ [c]) rest
    else readName (acc ++ [c]) rest

/-- Value of an octal digit string, as `strconv.ParseInt(s, 8, 32)` computes
it on a string of octal digits. -/
def octalValue (ds : List Nat) : Nat := ds.foldl (fun v d => v * 8 + (d - 48)) 0

/-- `readLiteralString`: paren counting and escapes.  `io.EOF` from the
rune read directly after a backslash, or from the two-rune commit of an
octal escape, is returned as-is (the end-of-input signal); the one-rune
peek after backslash–CR yields an empty slice at end-of-input and indexing
it panics; an octal escape whose three characters (first digit plus the
two peeked runes) do not all parse as base-8 is a formatted syntax
error. -/
def readLiteralString (depth : Nat) (acc : List Nat) (input : List Nat) : ScanResult :=
  match input with
  | [] => .synError "unexpected end of file" []
  | c :: rest =>
    if c = 40 then readLiteralString (depth + 1) (acc ++ [40]) rest
    else if c = 41 then
      if depth < 1 then .ok ⟨.litStringTok, acc⟩ rest
      else readLiteralString (depth - 1) (acc ++ [41]) rest
    else if c = 92 then
      match rest with
      | [] => .eofSignal
      | e :: rest2 =>
        if e = 110 then readLiteralString depth (acc ++ [10]) rest2
        else if e = 114 then readLiteralString depth (acc ++ [13]) rest2
        else if e = 116 then readLiteralString depth (acc ++ [9]) rest2
        else if e = 98 then readLiteralString depth (acc ++ [8]) rest2
        else if e = 102 then readLiteralString depth (acc ++ [12]) rest2
        else if e = 92 then readLiteralString depth (acc ++ [92]) rest2
        else if e = 40 then readLiteralString depth (acc ++ [40]) rest2
        else if e = 41 then readLiteralString depth (acc ++ [41]) rest2
        else if e = 10 then readLiteralString depth acc rest2
        else if e = 13 then
          if rest2.head? = none then .crash
          else if rest2.head? = some 10 then
            match rest2 with
            | _ :: rest3 => readLiteralString depth acc rest3
            | [] => .crash
          else readLiteralString depth acc rest2
        else if isOctalDigit e then
          if (e :: rest2.take 2).all isOctalDigit then
            match rest2 with
            | a :: b :: rest3 =>
              readLiteralString depth (acc ++ [octalValue (e :: a :: b :: [])]) rest3
            | _ => .eofSignal
          else .synError "unrecognized escape sequence" (e :: rest2.take 2)
        else readLiteralString depth (acc ++ [e]) rest2
    else readLiteralString depth (acc ++ [c]) rest

/-- `readHexString`: hex digits only; `>` terminates, padding the buffer
with `'0'` when an odd number of digits was collected; end-of-input
terminates without padding; any other character is a syntax error. -/
def readHexString (acc : List Nat) (input : List Nat) : ScanResult :=
  match input with
  | [] => .ok ⟨.hexStringTok, acc⟩ []
  | c :: rest =>
    if c = 62 then
      .ok ⟨.hexStringTok, if acc.length % 2 = 1 then acc ++ [48] else acc⟩ rest
    else if isHexDigit c then readHexString (acc ++ [c]) rest
    else .synError "invalid hexidecimal" []

/-- Go's `encoding/ascii85.Decode` loop, parameterised by the destination
capacity (`len(dst)`), returning whether the error result is nil.  The
scanner calls it with a nil destination, so `dstLen = 0`. -/
def ascii85DecodeLoop (dstLen : Nat) (flush : Bool) (v nb ndst : Nat) (src : List Nat) : Bool :=
  match src with
  | [] =>
    if flush then (if 0 < nb then (if nb = 1 then false else true) else true) else true
  | b :: bs =>
    if dstLen - ndst < 4 then true
    else if b ≤ 32 then ascii85DecodeLoop dstLen flush v nb ndst bs
    else if b = 122 ∧ nb = 0 then ascii85DecodeLoop dstLen flush 0 0 (ndst + 4) bs
    else if 33 ≤ b ∧ b ≤ 117 then
      if nb + 1 = 5 then ascii85DecodeLoop dstLen flush 0 0 (ndst + 4) bs
      else ascii85DecodeLoop dstLen flush ((v * 85 + (b - 33)) % 4294967296) (nb + 1) ndst bs
    else false

/-- Whether `ascii85.Decode(dst, src, flush)` with `len(dst) = dstLen`
returns a nil error. -/
def ascii85DecodeOk (dstLen : Nat) (src : List Nat) (flush : Bool) : Bool :=
  ascii85DecodeLoop dstLen flush 0 0 0 src

/-- Go's scalar-value test: what `string([]rune)` encodes directly
(everything else becomes U+FFFD). -/
def validScalar (c : Nat) : Bool :=
  decide (c < 55296) || (decide (57344 ≤ c) && decide (c ≤ 1114111))

/-- Byte length of the UTF-8 encoding of a valid scalar (`utf8.RuneLen`). -/
def utf8Len (c : Nat) : Nat :=
  if c < 128 then 1 else if c < 2048 then 2 else if c < 65536 then 3 else 4

/-- UTF-8 encoding of one rune, as Go's `string(r)` produces it: invalid
scalars are replaced by the encoding of U+FFFD. -/
def utf8EncodeChar (c : Nat) : List Nat :=
  if c < 128 then [c]
  else if c < 2048 then [192 + c / 64, 128 + c % 64]
  else if validScalar c then
    if c < 65536 then [224 + c / 4096, 128 + c / 64 % 64, 128 + c % 64]
    else [240 + c / 262144, 128 + c / 4096 % 64, 128 + c / 64 % 64, 128 + c % 64]
  else [239, 191, 189]

/-- `runes.ToUTF8`: the byte sequence of `string(rs)`. -/
def utf8Encode (cs : List Nat) : List Nat := (cs.map utf8EncodeChar).flatten

/-- Terminating a base85 body: the accumulated runes are re-encoded to
UTF-8 and handed to `ascii85.Decode(nil, src, true)`; a decode failure is
a syntax error. -/
def finishBase85 (acc : List Nat) (rest : List Nat) : ScanResult :=
  if ascii85DecodeOk 0 (utf8Encode acc) true then .ok ⟨.base85StringTok, acc⟩ rest
  else .synError "invalid base85" []

/-- `readBase85String`: consume until `~` followed by `>`.  On `~` the next
rune is peeked; at end-of-input the peek returns an empty slice and
indexing it panics.  A `~` not followed by `>` is stored and scanning
continues without consuming the peeked rune. -/
def readBase85String (acc : List Nat) (input : List Nat) : ScanResult :=
  match input with
  | [] => finishBase85 acc []
  | c :: rest =>
    if c = 126 then
      if rest.head? = none then .crash
      else if rest.head? = some 62 then finishBase85 acc (rest.drop 1)
      else readBase85String (acc ++ [126]) rest
    else readBase85String (acc ++ [c]) rest

/-- `readComment`: discard bytes through the first LF or FF; `none` means
end-of-input was reached first (the `io.EOF` is propagated). -/
def skipComment (input : List Nat) : Option (List Nat) :=
  match input with
  | [] => none
  | b :: rest =>
    if b = 10 ∨ b = 12 then some rest
    else skipComment rest

theorem skipComment_length {input rest : List Nat} (h : skipComment input = some rest) :
    rest.length < input.length := by
  induction input with
  | nil => simp [skipComment] at h
  | cons b bs ih =>
    simp only [skipComment] at h
    split at h
    · cases h; simp
    · have := ih h; simp; omega

mutual
/-- `ReadToken`: skip delimiters and comments, then dispatch on the first
codepoint of the token.  After `<`, one rune is peeked to distinguish
base85 (`<~`) from hex; at end-of-input the peek returns an empty slice
and indexing it panics. -/
def readToken (input : List Nat) : ScanResult :=
  match input with
  | [] => .eofSignal
  | c :: rest =>
    if isDelim c then readToken rest
    else if c = 37 then readTokenComment rest
    else if c = 46 then readReal [46] rest
    else if c = 45 ∨ isDigit c then readNumeric [c] rest
    else if c = 40 then readLiteralString 0 [] rest
    else if c = 60 then
      match rest with
      | [] => .crash
      | n :: rest2 =>
        if n = 126 then readBase85String [] rest2
        else readHexString [] rest
    else readName [c] rest

/-- The comment branch of `ReadToken`: `readComment` (discard bytes through
the first LF or FF, propagating `io.EOF`) fused with the recursive
`ReadToken()` call that follows it; `readTokenComment_skipComment` below
states the correspondence with `skipComment`. -/
def readTokenComment (input : List Nat) : ScanResult :=
  match input with
  | [] => .eofSignal
  | b :: rest =>
    if b = 10 ∨ b = 12 then readToken rest
    else readTokenComment rest
end

theorem readTokenComment_skipComment (input : List Nat) :
    readTokenComment input =
      match skipComment input with
      | none => .eofSignal
      | some rest => readToken rest := by
  induction input with
  | nil => rfl
  | cons b rest ih =>
    simp only [readTokenComment, skipComment]
    split
    · rfl
    · exact ih

/-- Executable sufficient condition on a literal-string body under which the
scan runs to end-of-input through the main loop: the body never closes the
string (no unbalanced `)`), every backslash escape is complete (the escape
character is present, a backslash–CR is not the last thing in the input),
and every octal escape consists of exactly three octal digits.  Mirrors the
consumption pattern of `readLiteralString`. -/
def cleanEofBody (depth : Nat) (input : List Nat) : Bool :=
  match input with
  | [] => true
  | c :: rest =>
    if c = 40 then cleanEofBody (depth + 1) rest
    else if c = 41 then decide (1 ≤ depth) && cleanEofBody (depth - 1) rest
    else if c = 92 then
      match rest with
      | [] => false
      | e :: rest2 =>
        if e = 13 then
          if rest2.head? = none then false
          else if rest2.head? = some 10 then
            match rest2 with
            | _ :: rest3 => cleanEofBody depth rest3
            | [] => false
          else cleanEofBody depth rest2
        else if isOctalDigit e then
          match rest2 with
          | a :: b :: rest3 => isOctalDigit a && isOctalDigit b && cleanEofBody depth rest3
          | _ => false
        else cleanEofBody depth rest2
    else cleanEofBody depth rest

/-- All codepoints are decimal digits. -/
def Digits (xs : List Nat) : Prop := ∀ c ∈ xs, isDigit c = true

/-- All codepoints are alphanumeric. -/
def Alnums (xs : List Nat) : Prop := ∀ c ∈ xs, isAlnum c = true

/-- No codepoint is a delimiter. -/
def NoDelims (xs : List Nat) : Prop := ∀ c ∈ xs, isDelim c = false

/-- The texts an Integer token can carry: a `-` or digit seed followed by
digits. -/
def IntShape (xs : List Nat) : Prop :=
  ∃ s ds, xs = s :: ds ∧ (s = 45 ∨ isDigit s = true) ∧ Digits ds

/-- The exponent part of a real-scanner buffer: empty, or a marker `e`/`E`
followed by an optional `-` sign and digits. -/
def ExpPart (e : List Nat) : Prop :=
  e = [] ∨ ∃ mk sg ds, e = mk :: (sg ++ ds) ∧ (mk = 101 ∨ mk = 69) ∧
    (sg = [] ∨ sg = [45]) ∧ Digits ds

/-- The buffers reachable inside `readReal`: optional `-`, digits, a dot,
digits, and an optional exponent part. -/
def RealAcc (xs : List Nat) : Prop :=
  ∃ m i f e, xs = m ++ i ++ 46 :: (f ++ e) ∧ (m = [] ∨ m = [45]) ∧
    Digits i ∧ Digits f ∧ ExpPart e

/-- The last codepoint (if any) is not an exponent marker. -/
def NotMarkerLast (xs : List Nat) : Prop :=
  ∀ l, xs.getLast? = some l → l ≠ 101 ∧ l ≠ 69

/-- The texts a Real token can carry: a real-scanner buffer whose last
codepoint is not a bare exponent marker. -/
def RealShape (xs : List Nat) : Prop := RealAcc xs ∧ NotMarkerLast xs

/-- The buffers reachable inside `readRadix`: a nonempty digit base, `#`,
and alphanumerics. -/
def RadixAcc (xs : List Nat) : Prop :=
  ∃ i a, xs = i ++ 35 :: a ∧ i ≠ [] ∧ Digits i ∧ Alnums a

/-- The texts a Radix token can carry: base, `#`, and a nonempty run of
alphanumerics. -/
def RadixShape (xs : List Nat) : Prop :=
  ∃ i a, xs = i ++ 35 :: a ∧ i ≠ [] ∧ Digits i ∧ Alnums a ∧ a ≠ []

/-- Name texts seeded by the dispatch default case: the first codepoint is
none of the dispatch triggers, the continuation is delimiter-free. -/
def NameShape1 (xs : List Nat) : Prop :=
  ∃ c w, xs = c :: w ∧ isDelim c = false ∧ isDigit c = false ∧
    c ≠ 37 ∧ c ≠ 46 ∧ c ≠ 45 ∧ c ≠ 40 ∧ c ≠ 60 ∧ NoDelims w

/-- Name texts produced through the integer sub-scanner falling back on a
character it does not handle. -/
def NameShape2 (xs : List Nat) : Prop :=
  ∃ s ds c w, xs = s :: (ds ++ c :: w) ∧ (s = 45 ∨ isDigit s = true) ∧ Digits ds ∧
    isDelim c = false ∧ isDigit c = false ∧ c ≠ 46 ∧ c ≠ 35 ∧ NoDelims w

/-- Name texts produced through the real sub-scanner falling back on a
character its switch does not handle. -/
def NameShape3 (xs : List Nat) : Prop :=
  ∃ r c w, xs = r ++ c :: w ∧ RealAcc r ∧ isDelim c = false ∧ isDigit c = false ∧
    c ≠ 101 ∧ c ≠ 69 ∧ c ≠ 45 ∧ NoDelims w

/-- Name texts produced through the radix sub-scanner falling back on a
non-alphanumeric character. -/
def NameShape4 (xs : List Nat) : Prop :=
  ∃ r c w, xs = r ++ c :: w ∧ RadixAcc r ∧ isDelim c = false ∧ isAlnum c = false ∧
    NoDelims w

/-- Name texts covered by the round-trip theorem: every Name produced
without the real sub-scanner dropping a codepoint has one of these four
forms. -/
def NameShape (xs : List Nat) : Prop :=
  NameShape1 xs ∨ NameShape2 xs ∨ NameShape3 xs ∨ NameShape4 xs

/-- Result of one iteration of the `charBuilder` loop inside `PeekRunes`:
no peek size succeeded, a decoded `utf8.RuneError`, or a decoded rune with
its byte size. -/
inductive PeekStep where
  | noBytes
  | runeFailure
  | got (c sz : Nat)
deriving DecidableEq, Repr

/-- The `bufio.Reader` default buffer size; `Peek(n)` can return at most
this many bytes. -/
def bufSize : Nat := 4096

/-- Go's `utf8.DecodeRune` on a byte slice: the decoded rune and its byte
size, `(65533, 1)` (`RuneError`) on a malformed or truncated encoding,
`(65533, 0)` on an empty slice. -/
def decodeRune (bs : List Nat) : Nat × Nat :=
  match bs with
  | [] => (65533, 0)
  | b0 :: rest =>
    if b0 < 128 then (b0, 1)
    else if b0 < 194 then (65533, 1)
    else if b0 ≤ 223 then
      match rest with
      | b1 :: _ =>
        if 128 ≤ b1 ∧ b1 ≤ 191 then ((b0 - 192) * 64 + (b1 - 128), 2) else (65533, 1)
      | [] => (65533, 1)
    else if b0 ≤ 239 then
      match rest with
      | b1 :: b2 :: _ =>
        if (if b0 = 224 then 160 ≤ b1 ∧ b1 ≤ 191
            else if b0 = 237 then 128 ≤ b1 ∧ b1 ≤ 159
            else 128 ≤ b1 ∧ b1 ≤ 191) ∧ 128 ≤ b2 ∧ b2 ≤ 191 then
          ((b0 - 224) * 4096 + (b1 - 128) * 64 + (b2 - 128), 3)
        else (65533, 1)
      | _ => (65533, 1)
    else if b0 ≤ 244 then
      match rest with
      | b1 :: b2 :: b3 :: _ =>
        if (if b0 = 240 then 144 ≤ b1 ∧ b1 ≤ 191
            else if b0 = 244 then 128 ≤ b1 ∧ b1 ≤ 143
            else 128 ≤ b1 ∧ b1 ≤ 191) ∧ 128 ≤ b2 ∧ b2 ≤ 191 ∧ 128 ≤ b3 ∧ b3 ≤ 191 then
          ((b0 - 240) * 262144 + (b1 - 128) * 4096 + (b2 - 128) * 64 + (b3 - 128), 4)
        else (65533, 1)
      | _ => (65533, 1)
    else (65533, 1)

/-- One iteration of the `charBuilder` loop of `PeekRunes` over the
unconsumed bytes `bs` at peek offset `off`: `bufio.Peek(peekBytes + off)`
succeeds exactly when `peekBytes + off ≤ min bs.length bufSize`, so the
loop from `peekBytes = 4` down to `1` first succeeds with the window of
the next `min 4 (min bs.length bufSize - off)` bytes, decodes it, fails
the whole call when the decoded rune is `utf8.RuneError`, and otherwise
advances the offset by `utf8.RuneLen` of the rune; when every peek fails
the iteration leaves the state unchanged. -/
def peekWindow (bs : List Nat) (off : Nat) : PeekStep :=
  let lim := min bs.length bufSize
  if off < lim then
    let d := decodeRune ((bs.drop off).take (min 4 (lim - off)))
    if d.1 = 65533 then .runeFailure else .got d.1 (utf8Len d.1)
  else .noBytes

/-- The outer loop of `PeekRunes`: `n` iterations of `peekWindow`,
accumulating decoded runes; a `runeFailure` aborts with an error (`none`),
a `noBytes` iteration contributes nothing. -/
def peekRunesAux (bs : List Nat) : Nat → Nat → List Nat → Option (List Nat)
  | 0, _, acc => some acc
  | n + 1, off, acc =>
    match peekWindow bs off with
    | .noBytes => peekRunesAux bs n off acc
    | .runeFailure => none
    | .got c sz => peekRunesAux bs n (off + sz) (acc ++ [c])

/-- `runes.Reader.PeekRunes(n)` over the unconsumed bytes `bs`: `none` is
the error return, `some w` the rune slice returned with a nil error. -/
def peekRunes (n : Nat) (bs : List Nat) : Option (List Nat) :=
  if n < 1 then some [] else peekRunesAux bs n 0 []

theorem isDelim_iff {c : Nat} :
    isDelim c = true ↔ c = 0 ∨ c = 32 ∨ c = 9 ∨ c = 13 ∨ c = 10 ∨ c = 8 ∨ c = 12 := by
  simp [isDelim]; tauto

theorem isDigit_iff {c : Nat} : isDigit c = true ↔ 48 ≤ c ∧ c ≤ 57 := by
  simp [isDigit]

theorem isOctalDigit_iff {c : Nat} : isOctalDigit c = true ↔ 48 ≤ c ∧ c ≤ 55 := by
  simp [isOctalDigit]

theorem isHexDigit_iff {c : Nat} :
    isHexDigit c = true ↔ (48 ≤ c ∧ c ≤ 57) ∨ (97 ≤ c ∧ c ≤ 102) ∨ (65 ≤ c ∧ c ≤ 70) := by
  simp [isHexDigit, isDigit]; tauto

theorem isAlnum_iff {c : Nat} :
    isAlnum c = true ↔ (48 ≤ c ∧ c ≤ 57) ∨ (97 ≤ c ∧ c ≤ 122) ∨ (65 ≤ c ∧ c ≤ 90) := by
  simp [isAlnum, isDigit]; tauto

theorem isDigit_not_delim {c : Nat} (h : isDigit c = true) : isDelim c = false := by
  rw [isDigit_iff] at h
  rw [Bool.eq_false_iff, ne_eq, isDelim_iff]
  omega

theorem isAlnum_not_delim {c : Nat} (h : isAlnum c = true) : isDelim c = false := by
  rw [isAlnum_iff] at h
  rw [Bool.eq_false_iff, ne_eq, isDelim_iff]
  omega

theorem isHexDigit_not_delim {c : Nat} (h : isHexDigit c = true) : isDelim c = false := by
  rw [isHexDigit_iff] at h
  rw [Bool.eq_false_iff, ne_eq, isDelim_iff]
  omega

/-- Closed form of `readName`: it appends every codepoint up to the first
delimiter (or the whole input) and returns a Name token, leaving the input
after that delimiter. -/
theorem readName_eq (acc input : List Nat) :
    readName acc input =
      .ok ⟨.nameTok, acc ++ input.takeWhile (fun c => !isDelim c)⟩
        ((input.dropWhile (fun c => !isDelim c)).drop 1) := by
  induction input generalizing acc with
  | nil => simp [readName]
  | cons c rest ih =>
    rw [readName.eq_2]
    rcases h : isDelim c with _ | _
    · rw [if_neg (by simp [h]), ih (acc ++ [c])]
      simp [List.takeWhile_cons, List.dropWhile_cons, h]
    · simp [List.takeWhile_cons, List.dropWhile_cons, h]

/-- `readNumeric` consumes a run of digits by accumulating them. -/
theorem readNumeric_digits {ds : List Nat} (h : ∀ c ∈ ds, isDigit c = true)
    (acc input : List Nat) :
    readNumeric acc (ds ++ input) = readNumeric (acc ++ ds) input := by
  induction ds generalizing acc with
  | nil => simp
  | cons d ds ih =>
    have hd : isDigit d = true := h d (by simp)
    rw [List.cons_append, readNumeric.eq_2, if_neg (by simp [isDigit_not_delim hd]),
      if_pos hd, ih (fun c hc => h c (by simp [hc]))]
    simp

/-- `readReal` consumes a run of digits by accumulating them (the last
accumulated character is re-read each iteration, so the buffer must be
nonempty). -/
theorem readReal_digits {ds : List Nat} (h : ∀ c ∈ ds, isDigit c = true)
    {acc : List Nat} (hacc : acc ≠ []) (input : List Nat) :
    readReal acc (ds ++ input) = readReal (acc ++ ds) input := by
  induction ds generalizing acc with
  | nil => simp
  | cons d ds ih =>
    have hd : isDigit d = true := h d (by simp)
    have hd2 := isDigit_iff.mp hd
    obtain ⟨l, hl⟩ := Option.isSome_iff_exists.mp (List.getLast?_isSome.mpr hacc)
    rw [List.cons_append, readReal.eq_def, hl]
    simp only
    rw [if_neg (by simp [isDigit_not_delim hd]), if_neg (by omega : ¬ (d = 101 ∨ d = 69)),
      if_neg (by omega : ¬ d = 45), if_pos hd, ih (fun c hc => h c (by simp [hc])) (by simp)]
    simp

/-- `readRadix` consumes a run of alphanumerics by accumulating them. -/
theorem readRadix_alnums {as : List Nat} (h : ∀ c ∈ as, isAlnum c = true)
    {acc : List Nat} (hacc : acc ≠ []) (input : List Nat) :
    readRadix acc (as ++ input) = readRadix (acc ++ as) input := by
  induction as generalizing acc with
  | nil => simp
  | cons a as ih =>
    have ha : isAlnum a = true := h a (by simp)
    obtain ⟨l, hl⟩ := Option.isSome_iff_exists.mp (List.getLast?_isSome.mpr hacc)
    rw [List.cons_append, readRadix.eq_def, hl]
    simp only
    rw [if_neg (by simp [isAlnum_not_delim ha]), if_pos ha,
      ih (fun c hc => h c (by simp [hc])) (by simp)]
    simp

/-- `readHexString` consumes a run of hex digits by accumulating them. -/
theorem readHexString_digits {ds : List Nat} (h : ∀ c ∈ ds, isHexDigit c = true)
    (acc input : List Nat) :
    readHexString acc (ds ++ input) = readHexString (acc ++ ds) input := by
  induction ds generalizing acc with
  | nil => simp
  | cons d ds ih =>
    have hd : isHexDigit d = true := h d (by simp)
    have hd2 := isHexDigit_iff.mp hd
    rw [List.cons_append, readHexString.eq_2, if_neg (by omega : ¬ d = 62), if_pos hd,
      ih (fun c hc => h c (by simp [hc]))]
    simp

/-- `readBase85String` consumes a run of non-`~` codepoints by accumulating
them. -/
theorem readBase85String_consume {bs : List Nat} (h : ∀ c ∈ bs, c ≠ 126)
    (acc input : List Nat) :
    readBase85String acc (bs ++ input) = readBase85String (acc ++ bs) input := by
  induction bs generalizing acc with
  | nil => simp
  | cons b bs ih =>
    have hb : b ≠ 126 := h b (by simp)
    rw [List.cons_append, readBase85String.eq_2, if_neg hb,
      ih (fun c hc => h c (by simp [hc]))]
    simp

/-- `ascii85.Decode` with a nil destination never reports an error: the
destination-capacity check at the top of the loop returns before any byte
of a nonempty source is examined, and an empty source flushes with an
empty group. -/
theorem ascii85DecodeOk_nil_dst (src : List Nat) : ascii85DecodeOk 0 src true = true := by
  cases src with
  | nil => rfl
  | cons b bs => simp [ascii85DecodeOk, ascii85DecodeLoop]

theorem finishBase85_ok (acc rest : List Nat) :
    finishBase85 acc rest = .ok ⟨.base85StringTok, acc⟩ rest := by
  simp [finishBase85, ascii85DecodeOk_nil_dst]

/-- Hand-stated unfolding equation for `readLiteralString` on a cons cell
(the automatically generated equations are unavailable for this match
shape); proved by case analysis on the next two codepoints. -/
theorem readLiteralString_cons (depth : Nat) (acc : List Nat) (c : Nat) (rest : List Nat) :
    readLiteralString depth acc (c :: rest) =
      (if c = 40 then readLiteralString (depth + 1) (acc ++ [40]) rest
       else if c = 41 then
         if depth < 1 then .ok ⟨.litStringTok, acc⟩ rest
         else readLiteralString (depth - 1) (acc ++ [41]) rest
       else if c = 92 then
         match rest with
         | [] => .eofSignal
         | e :: rest2 =>
           if e = 110 then readLiteralString depth (acc ++ [10]) rest2
           else if e = 114 then readLiteralString depth (acc ++ [13]) rest2
           else if e = 116 then readLiteralString depth (acc ++ [9]) rest2
           else if e = 98 then readLiteralString depth (acc ++ [8]) rest2
           else if e = 102 then readLiteralString depth (acc ++ [12]) rest2
           else if e = 92 then readLiteralString depth (acc ++ [92]) rest2
           else if e = 40 then readLiteralString depth (acc ++ [40]) rest2
           else if e = 41 then readLiteralString depth (acc ++ [41]) rest2
           else if e = 10 then readLiteralString depth acc rest2
           else if e = 13 then
             if rest2.head? = none then .crash
             else if rest2.head? = some 10 then
               match rest2 with
               | _ :: rest3 => readLiteralString depth acc rest3
               | [] => .crash
             else readLiteralString depth acc rest2
           else if isOctalDigit e then
             if (e :: rest2.take 2).all isOctalDigit then
               match rest2 with
               | a :: b :: rest3 =>
                 readLiteralString depth (acc ++ [octalValue (e :: a :: b :: [])]) rest3
               | _ => .eofSignal
             else .synError "unrecognized escape sequence" (e :: rest2.take 2)
           else readLiteralString depth (acc ++ [e]) rest2
       else readLiteralString depth (acc ++ [c]) rest) := by
  cases rest with
  | nil => rfl
  | cons e rest2 =>
    cases rest2 with
    | nil => rfl
    | cons f rest3 =>
      cases rest3 with
      | nil => rfl
      | cons g rest4 => rfl

/-- Unfolding equation for the escape handling after a backslash. -/
theorem readLiteralString_backslash (depth : Nat) (acc : List Nat) (e : Nat)
    (rest2 : List Nat) :
    readLiteralString depth acc (92 :: e :: rest2) =
      (if e = 110 then readLiteralString depth (acc ++ [10]) rest2
       else if e = 114 then readLiteralString depth (acc ++ [13]) rest2
       else if e = 116 then readLiteralString depth (acc ++ [9]) rest2
       else if e = 98 then readLiteralString depth (acc ++ [8]) rest2
       else if e = 102 then readLiteralString depth (acc ++ [12]) rest2
       else if e = 92 then readLiteralString depth (acc ++ [92]) rest2
       else if e = 40 then readLiteralString depth (acc ++ [40]) rest2
       else if e = 41 then readLiteralString depth (acc ++ [41]) rest2
       else if e = 10 then readLiteralString depth acc rest2
       else if e = 13 then
         if rest2.head? = none then .crash
         else if rest2.head? = some 10 then
           match rest2 with
           | _ :: rest3 => readLiteralString depth acc rest3
           | [] => .crash
         else readLiteralString depth acc rest2
       else if isOctalDigit e then
         if (e :: rest2.take 2).all isOctalDigit then
           match rest2 with
           | a :: b :: rest3 =>
             readLiteralString depth (acc ++ [octalValue (e :: a :: b :: [])]) rest3
           | _ => .eofSignal
         else .synError "unrecognized escape sequence" (e :: rest2.take 2)
       else readLiteralString depth (acc ++ [e]) rest2) := by
  cases rest2 with
  | nil => rfl
  | cons f rest3 =>
    cases rest3 with
    | nil => rfl
    | cons g rest4 => rfl

/-- Unfolding equation for the backslash–CR escape. -/
theorem readLiteralString_cr (depth : Nat) (acc : List Nat) (rest2 : List Nat) :
    readLiteralString depth acc (92 :: 13 :: rest2) =
      (if rest2.head? = none then .crash
       else if rest2.head? = some 10 then
         match rest2 with
         | _ :: rest3 => readLiteralString depth acc rest3
         | [] => .crash
       else readLiteralString depth acc rest2) := by
  rw [readLiteralString_backslash, if_neg (by decide : ¬ (13 : Nat) = 110),
    if_neg (by decide : ¬ (13 : Nat) = 114), if_neg (by decide : ¬ (13 : Nat) = 116),
    if_neg (by decide : ¬ (13 : Nat) = 98), if_neg (by decide : ¬ (13 : Nat) = 102),
    if_neg (by decide : ¬ (13 : Nat) = 92), if_neg (by decide : ¬ (13 : Nat) = 40),
    if_neg (by decide : ¬ (13 : Nat) = 41), if_neg (by decide : ¬ (13 : Nat) = 10),
    if_pos rfl]

/-- Unfolding equation for an octal escape. -/
theorem readLiteralString_octal (depth : Nat) (acc : List Nat) {e : Nat}
    (hoct : isOctalDigit e = true) (rest2 : List Nat) :
    readLiteralString depth acc (92 :: e :: rest2) =
      (if (e :: rest2.take 2).all isOctalDigit then
         match rest2 with
         | a :: b :: rest3 =>
           readLiteralString depth (acc ++ [octalValue (e :: a :: b :: [])]) rest3
         | _ => .eofSignal
       else .synError "unrecognized escape sequence" (e :: rest2.take 2)) := by
  have he := isOctalDigit_iff.mp hoct
  rw [readLiteralString_backslash, if_neg (by omega : ¬ e = 110),
    if_neg (by omega : ¬ e = 114), if_neg (by omega : ¬ e = 116),
    if_neg (by omega : ¬ e = 98), if_neg (by omega : ¬ e = 102),
    if_neg (by omega : ¬ e = 92), if_neg (by omega : ¬ e = 40),
    if_neg (by omega : ¬ e = 41), if_neg (by omega : ¬ e = 10),
    if_neg (by omega : ¬ e = 13), if_pos hoct]

/-- Hand-stated unfolding equation for `cleanEofBody` on a cons cell. -/
theorem cleanEofBody_cons (depth : Nat) (c : Nat) (rest : List Nat) :
    cleanEofBody depth (c :: rest) =
      (if c = 40 then cleanEofBody (depth + 1) rest
       else if c = 41 then decide (1 ≤ depth) && cleanEofBody (depth - 1) rest
       else if c = 92 then
         match rest with
         | [] => false
         | e :: rest2 =>
           if e = 13 then
             if rest2.head? = none then false
             else if rest2.head? = some 10 then
               match rest2 with
               | _ :: rest3 => cleanEofBody depth rest3
               | [] => false
             else cleanEofBody depth rest2
           else if isOctalDigit e then
             match rest2 with
             | a :: b :: rest3 => isOctalDigit a && isOctalDigit b && cleanEofBody depth rest3
             | _ => false
           else cleanEofBody depth rest2
       else cleanEofBody depth rest) := by
  cases rest with
  | nil => rfl
  | cons e rest2 =>
    cases rest2 with
    | nil => rfl
    | cons f rest3 =>
      cases rest3 with
      | nil => rfl
      | cons g rest4 => rfl

/-- Unfolding equation for the escape handling of `cleanEofBody` after a
backslash. -/
theorem cleanEofBody_backslash (depth : Nat) (e : Nat) (rest2 : List Nat) :
    cleanEofBody depth (92 :: e :: rest2) =
      (if e = 13 then
         if rest2.head? = none then false
         else if rest2.head? = some 10 then
           match rest2 with
           | _ :: rest3 => cleanEofBody depth rest3
           | [] => false
         else cleanEofBody depth rest2
       else if isOctalDigit e then
         match rest2 with
         | a :: b :: rest3 => isOctalDigit a && isOctalDigit b && cleanEofBody depth rest3
         | _ => false
       else cleanEofBody depth rest2) := by
  cases rest2 with
  | nil => rfl
  | cons f rest3 =>
    cases rest3 with
    | nil => rfl
    | cons g rest4 => rfl

/-- Strong induction on the length of a list. -/
theorem strongListInd (P : List Nat → Prop)
    (step : ∀ xs, (∀ ys : List Nat, ys.length < xs.length → P ys) → P xs) :
    ∀ xs, P xs := by
  have H : ∀ n (xs : List Nat), xs.length ≤ n → P xs := by
    intro n
    induction n with
    | zero => exact fun xs h => step xs (fun ys hy => ((by omega : False)).elim)
    | succ n ih => exact fun xs h => step xs (fun ys hy => ih ys (by omega))
  exact fun xs => H xs.length xs le_rfl

/-- A backslash escape whose selector is neither CR nor an octal digit
consumes exactly the selector and continues scanning (with some updated
buffer). -/
theorem readLiteralString_esc_simple (depth : Nat) (acc : List Nat) {e : Nat}
    (h13 : e ≠ 13) (hoct : isOctalDigit e = false) (rest2 : List Nat) :
    ∃ acc2, readLiteralString depth acc (92 :: e :: rest2) =
      readLiteralString depth acc2 rest2 := by
  rw [readLiteralString_backslash]
  by_cases h1 : e = 110
  · exact ⟨acc ++ [10], by rw [if_pos h1]⟩
  rw [if_neg h1]
  by_cases h2 : e = 114
  · exact ⟨acc ++ [13], by rw [if_pos h2]⟩
  rw [if_neg h2]
  by_cases h3 : e = 116
  · exact ⟨acc ++ [9], by rw [if_pos h3]⟩
  rw [if_neg h3]
  by_cases h4 : e = 98
  · exact ⟨acc ++ [8], by rw [if_pos h4]⟩
  rw [if_neg h4]
  by_cases h5 : e = 102
  · exact ⟨acc ++ [12], by rw [if_pos h5]⟩
  rw [if_neg h5]
  by_cases h6 : e = 92
  · exact ⟨acc ++ [92], by rw [if_pos h6]⟩
  rw [if_neg h6]
  by_cases h7 : e = 40
  · exact ⟨acc ++ [40], by rw [if_pos h7]⟩
  rw [if_neg h7]
  by_cases h8 : e = 41
  · exact ⟨acc ++ [41], by rw [if_pos h8]⟩
  rw [if_neg h8]
  by_cases h9 : e = 10
  · exact ⟨acc, by rw [if_pos h9]⟩
  rw [if_neg h9, if_neg h13, if_neg (by simp [hoct])]
  exact ⟨acc ++ [e], rfl⟩

/-- When a literal-string body satisfies `cleanEofBody`, the scan runs to
end-of-input through the main loop and reports the unexpected-end-of-file
syntax error, whatever the buffer and nesting depth. -/
theorem readLiteralString_cleanEof :
    ∀ (input : List Nat) (depth : Nat) (acc : List Nat), cleanEofBody depth input = true →
      readLiteralString depth acc input = .synError "unexpected end of file" [] := by
  refine strongListInd
    (fun input => ∀ (depth : Nat) (acc : List Nat), cleanEofBody depth input = true →
      readLiteralString depth acc input = .synError "unexpected end of file" []) ?_
  intro input IH depth acc hclean
  cases input with
  | nil => rfl
  | cons c rest =>
    by_cases h40 : c = 40
    · subst h40
      rw [cleanEofBody_cons, if_pos rfl] at hclean
      rw [readLiteralString_cons, if_pos rfl]
      exact IH rest (by simp only [List.length_cons]; omega) _ _ hclean
    by_cases h41 : c = 41
    · subst h41
      rw [cleanEofBody_cons, if_neg (by omega), if_pos rfl] at hclean
      rw [Bool.and_eq_true, decide_eq_true_iff] at hclean
      rw [readLiteralString_cons, if_neg (by omega), if_pos rfl,
        if_neg (by omega : ¬ depth < 1)]
      exact IH rest (by simp only [List.length_cons]; omega) _ _ hclean.2
    by_cases h92 : c = 92
    · subst h92
      cases rest with
      | nil => exact Bool.noConfusion hclean
      | cons e rest2 =>
        rw [cleanEofBody_backslash] at hclean
        by_cases h13 : e = 13
        · subst h13
          rw [if_pos rfl] at hclean
          rw [readLiteralString_cr]
          cases rest2 with
          | nil => exact Bool.noConfusion hclean
          | cons f rest3 =>
            rw [if_neg (by simp)] at hclean ⊢
            by_cases hf : f = 10
            · subst hf
              exact IH rest3 (by simp only [List.length_cons]; omega) _ _ hclean
            · rw [if_neg (by simp [hf])] at hclean ⊢
              exact IH (f :: rest3) (by simp only [List.length_cons]; omega) _ _ hclean
        by_cases hoct : isOctalDigit e = true
        · have he := isOctalDigit_iff.mp hoct
          rw [if_neg h13, if_pos hoct] at hclean
          cases rest2 with
          | nil => exact Bool.noConfusion hclean
          | cons a rest3 =>
            revert hclean
            cases rest3 with
            | nil => exact fun hclean => Bool.noConfusion hclean
            | cons b rest4 =>
              intro hclean
              have hclean2 : ((isOctalDigit a && isOctalDigit b) &&
                  cleanEofBody depth rest4) = true := hclean
              rw [Bool.and_eq_true, Bool.and_eq_true] at hclean2
              obtain ⟨⟨ha, hb⟩, hrest⟩ := hclean2
              rw [readLiteralString_octal depth acc hoct,
                if_pos (by simp [hoct, ha, hb])]
              exact IH rest4 (by simp only [List.length_cons]; omega) _ _ hrest
        · have hoct2 : isOctalDigit e = false := by
            rcases h : isOctalDigit e with _ | _
            · rfl
            · exact absurd h hoct
          rw [if_neg h13, if_neg (by simp [hoct2])] at hclean
          obtain ⟨acc2, hstep⟩ := readLiteralString_esc_simple depth acc h13 hoct2 rest2
          rw [hstep]
          exact IH rest2 (by simp only [List.length_cons]; omega) _ _ hclean
    · rw [cleanEofBody_cons, if_neg h40, if_neg h41, if_neg h92] at hclean
      rw [readLiteralString_cons, if_neg h40, if_neg h41, if_neg h92]
      exact IH rest (by simp only [List.length_cons]; omega) _ _ hclean

theorem readToken_delim {c : Nat} (h : isDelim c = true) (rest : List Nat) :
    readToken (c :: rest) = readToken rest := by
  rw [readToken.eq_def]
  simp [h]

theorem readToken_comment (rest : List Nat) :
    readToken (37 :: rest) = readTokenComment rest := by
  rw [readToken.eq_def]
  simp [isDelim]

theorem readToken_dot (rest : List Nat) :
    readToken (46 :: rest) = readReal [46] rest := by
  rw [readToken.eq_def]
  simp [isDelim]

theorem readToken_numeric {c : Nat} (h : c = 45 ∨ isDigit c = true) (rest : List Nat) :
    readToken (c :: rest) = readNumeric [c] rest := by
  have hdel : isDelim c = false := by
    rcases h with rfl | h
    · decide
    · exact isDigit_not_delim h
  have hr : (48 ≤ c ∧ c ≤ 57) ∨ c = 45 := by
    rcases h with rfl | h
    · exact Or.inr rfl
    · exact Or.inl (isDigit_iff.mp h)
  rw [readToken.eq_def]
  simp only [hdel, Bool.false_eq_true, if_false]
  rw [if_neg (by omega : ¬ c = 37), if_neg (by omega : ¬ c = 46), if_pos h]

theorem readToken_lparen (rest : List Nat) :
    readToken (40 :: rest) = readLiteralString 0 [] rest := by
  rw [readToken.eq_def]
  simp [isDelim, isDigit]

theorem readToken_lt_hex {n : Nat} (hn : n ≠ 126) (rest : List Nat) :
    readToken (60 :: n :: rest) = readHexString [] (n :: rest) := by
  rw [readToken.eq_def]
  simp only [show isDelim 60 = false from rfl, Bool.false_eq_true, if_false]
  rw [if_neg (by omega : ¬ (60 : Nat) = 37), if_neg (by omega : ¬ (60 : Nat) = 46),
    if_neg (by simp [isDigit] : ¬ ((60 : Nat) = 45 ∨ isDigit 60 = true)),
    if_neg (by omega : ¬ (60 : Nat) = 40)]
  simp [hn]

theorem readToken_lt_b85 (rest : List Nat) :
    readToken (60 :: 126 :: rest) = readBase85String [] rest := by
  rw [readToken.eq_def]
  simp only [show isDelim 60 = false from rfl, Bool.false_eq_true, if_false]
  rw [if_neg (by omega : ¬ (60 : Nat) = 37), if_neg (by omega : ¬ (60 : Nat) = 46),
    if_neg (by simp [isDigit] : ¬ ((60 : Nat) = 45 ∨ isDigit 60 = true)),
    if_neg (by omega : ¬ (60 : Nat) = 40)]
  simp

theorem readToken_name {c : Nat} (hdel : isDelim c = false) (hdig : isDigit c = false)
    (h37 : c ≠ 37) (h46 : c ≠ 46) (h45 : c ≠ 45) (h40 : c ≠ 40) (h60 : c ≠ 60)
    (rest : List Nat) :
    readToken (c :: rest) = readName [c] rest := by
  rw [readToken.eq_def]
  simp only [hdel, Bool.false_eq_true, if_false]
  rw [if_neg h37, if_neg h46,
    if_neg (by simp [hdig, h45] : ¬ (c = 45 ∨ isDigit c = true)),
    if_neg h40, if_neg h60]

/-- C5 (confirmed): when the real sub-scanner reaches end-of-input or a
delimiter while the last accumulated character is the exponent marker
`e`/`E`, and when the radix sub-scanner reaches end-of-input or a
delimiter while the last accumulated character is `#`, next-token returns
the corresponding truncated-token syntax error and no token. -/
theorem claim5_truncatedRealRadix :
    (∀ (acc input : List Nat) (l : Nat), acc.getLast? = some l → (l = 101 ∨ l = 69) →
      (input = [] ∨ ∃ d rest, input = d :: rest ∧ isDelim d = true) →
      readReal acc input = .synError "unexpected end of real number" []) ∧
    (∀ (acc input : List Nat), acc.getLast? = some 35 →
      (input = [] ∨ ∃ d rest, input = d :: rest ∧ isDelim d = true) →
      readRadix acc input = .synError "unexpected end of radix number" []) := by
  constructor
  · intro acc input l hl hml hin
    have hte : (decide (l = 101) || decide (l = 69)) = true := by
      rcases hml with rfl | rfl <;> simp
    rcases hin with rfl | ⟨d, rest, rfl, hd⟩
    · rw [readReal.eq_def, hl]
      simp [hte]
    · rw [readReal.eq_def, hl]
      simp [hte, hd]
  · intro acc input hl hin
    rcases hin with rfl | ⟨d, rest, rfl, hd⟩
    · rw [readRadix.eq_def, hl]
      simp
    · rw [readRadix.eq_def, hl]
      simp [hd]

theorem claim5_truncatedRealRadix_witness :
    readReal [49, 101] [] = .synError "unexpected end of real number" [] ∧
    readRadix [49, 54, 35] [32] = .synError "unexpected end of radix number" [] :=
  ⟨claim5_truncatedRealRadix.1 [49, 101] [] 101 (by decide) (Or.inl rfl) (Or.inl rfl),
   claim5_truncatedRealRadix.2 [49, 54, 35] [32] (by decide)
     (Or.inr ⟨32, [], rfl, by decide⟩)⟩

/-- C6 (confirmed): a `#` reached by the numeric sub-scanner while the
accumulated text starts with `-` is the negative-radix-base syntax error;
in particular scanning `-<digits>#...` from the top returns that error and
no token. -/
theorem claim6_negativeRadixBase :
    (∀ (acc rest : List Nat), acc.head? = some 45 →
      readNumeric acc (35 :: rest) = .synError "radix number cannot have a negative base" []) ∧
    (∀ (ds rest : List Nat), Digits ds →
      readToken (45 :: (ds ++ 35 :: rest)) =
        .synError "radix number cannot have a negative base" []) := by
  have base : ∀ (acc rest : List Nat), acc.head? = some 45 →
      readNumeric acc (35 :: rest) = .synError "radix number cannot have a negative base" [] := by
    intro acc rest hh
    rw [readNumeric.eq_2, if_neg (by simp [isDelim]), if_neg (by simp [isDigit]),
      if_neg (by omega : ¬ (35 : Nat) = 46), if_pos rfl, hh]
    simp
  refine ⟨base, fun ds rest hds => ?_⟩
  rw [readToken_numeric (Or.inl rfl), readNumeric_digits hds [45] (35 :: rest)]
  exact base (45 :: ds) rest rfl

theorem claim6_negativeRadixBase_witness :
    readNumeric [45, 49] [35, 50] = .synError "radix number cannot have a negative base" [] ∧
    readToken [45, 49, 35, 50] = .synError "radix number cannot have a negative base" [] :=
  ⟨claim6_negativeRadixBase.1 [45, 49] [50] rfl,
   claim6_negativeRadixBase.2 [49] [50] (by intro c hc; simp at hc; simp [hc, isDigit])⟩

/-- C7 (confirmed): when the integer, real, or radix sub-scanner reads a
character its switch does not handle specially, it appends it and
continues consuming codepoints until a delimiter or end-of-input,
returning a single Name token whose text is everything accumulated plus
the continuation; in particular `"1x0"` scans to one Name token `"1x0"`
with nothing left. -/
theorem claim7_nameFallback :
    (∀ (acc rest : List Nat) (c : Nat), isDelim c = false → isDigit c = false →
      c ≠ 46 → c ≠ 35 →
      readNumeric acc (c :: rest) =
        .ok ⟨.nameTok, acc ++ c :: rest.takeWhile (fun x => !isDelim x)⟩
          ((rest.dropWhile (fun x => !isDelim x)).drop 1)) ∧
    (∀ (acc rest : List Nat) (c l : Nat), acc.getLast? = some l → isDelim c = false →
      isDigit c = false → c ≠ 101 → c ≠ 69 → c ≠ 45 →
      readReal acc (c :: rest) =
        .ok ⟨.nameTok, acc ++ c :: rest.takeWhile (fun x => !isDelim x)⟩
          ((rest.dropWhile (fun x => !isDelim x)).drop 1)) ∧
    (∀ (acc rest : List Nat) (c l : Nat), acc.getLast? = some l → isDelim c = false →
      isAlnum c = false →
      readRadix acc (c :: rest) =
        .ok ⟨.nameTok, acc ++ c :: rest.takeWhile (fun x => !isDelim x)⟩
          ((rest.dropWhile (fun x => !isDelim x)).drop 1)) ∧
    readToken [49, 120, 48] = .ok ⟨.nameTok, [49, 120, 48]⟩ [] := by
  refine ⟨?_, ?_, ?_, by decide⟩
  · intro acc rest c hdel hdig h46 h35
    rw [readNumeric.eq_2, if_neg (by simp [hdel]), if_neg (by simp [hdig]),
      if_neg h46, if_neg h35, readName_eq]
    simp
  · intro acc rest c l hl hdel hdig h101 h69 h45
    rw [readReal.eq_def, hl]
    simp only
    rw [if_neg (by simp [hdel]), if_neg (by omega : ¬ (c = 101 ∨ c = 69)),
      if_neg h45, if_neg (by simp [hdig]), readName_eq]
    simp
  · intro acc rest c l hl hdel halnum
    rw [readRadix.eq_def, hl]
    simp only
    rw [if_neg (by simp [hdel]), if_neg (by simp [halnum]), readName_eq]
    simp

theorem claim7_nameFallback_witness :
    readNumeric [49] [120, 48] = .ok ⟨.nameTok, [49, 120, 48]⟩ [] ∧
    readReal [49, 46] [120, 48] = .ok ⟨.nameTok, [49, 46, 120, 48]⟩ [] ∧
    readRadix [50, 35] [46, 48] = .ok ⟨.nameTok, [50, 35, 46, 48]⟩ [] := by
  refine ⟨?_, ?_, ?_⟩
  · have h := claim7_nameFallback.1 [49] [48] 120 (by decide) (by decide) (by decide) (by decide)
    simpa using h
  · have h := claim7_nameFallback.2.1 [49, 46] [48] 120 46 (by decide) (by decide) (by decide)
      (by decide) (by decide) (by decide)
    simpa using h
  · have h := claim7_nameFallback.2.2.1 [50, 35] [48] 46 35 (by decide) (by decide) (by decide)
    simpa using h

/-- C8 (confirmed): a hex string terminated by `>` is padded with one `0`
when an odd number of hex digits was collected, so the token text is the
scanned digits plus at most one pad and always has even length. -/
theorem claim8_hexPadding (ds rest : List Nat) (h : ∀ c ∈ ds, isHexDigit c = true) :
    readToken (60 :: (ds ++ 62 :: rest)) =
      .ok ⟨.hexStringTok, if ds.length % 2 = 1 then ds ++ [48] else ds⟩ rest ∧
    Even (if ds.length % 2 = 1 then ds ++ [48] else ds).length := by
  have hex_exit : ∀ acc, readHexString acc (62 :: rest) =
      .ok ⟨.hexStringTok, if acc.length % 2 = 1 then acc ++ [48] else acc⟩ rest := by
    intro acc
    rw [readHexString.eq_2, if_pos rfl]
  constructor
  · match ds, h with
    | [], _ =>
      rw [List.nil_append, readToken_lt_hex (by omega) rest]
      simpa using hex_exit []
    | d :: ds, h =>
      have hd2 := isHexDigit_iff.mp (h d (by simp))
      rw [List.cons_append, readToken_lt_hex (by omega) ((ds ++ 62 :: rest))]
      have hc := readHexString_digits h [] (62 :: rest)
      rw [← List.cons_append, hc, List.nil_append]
      exact hex_exit (d :: ds)
  · by_cases hodd : ds.length % 2 = 1
    · rw [if_pos hodd, Nat.even_iff]
      simp only [List.length_append, List.length_cons, List.length_nil]
      omega
    · rw [if_neg hodd, Nat.even_iff]
      omega

theorem claim8_hexPadding_witness :
    readToken [60, 97, 98, 99, 62] = .ok ⟨.hexStringTok, [97, 98, 99, 48]⟩ [] ∧
    Even ([97, 98, 99, 48] : List Nat).length := by
  have h := claim8_hexPadding [97, 98, 99] [] (by decide)
  exact ⟨by simpa using h.1, by simpa using h.2⟩

/-- C10 (the claim is right, the code crashes): each of the three one-rune
lookaheads — after `<` at dispatch, after `~` inside a base85 body, and
after a backslash–CR pair inside a literal string — indexes the result of
`PeekRunes(1)` without checking it; at end-of-input the peek returns an
empty slice with a nil error and the indexing panics, so `ReadToken` does
not return a token, the end-of-input signal, or an error on the inputs
`"<"`, `"(\\\r"`, and `"<~a~"`. -/
theorem claim10_readToken_crashes :
    readToken [60] = .crash ∧
    readToken [40, 92, 13] = .crash ∧
    readToken [60, 126, 97, 126] = .crash := by decide

/-- C1 counterexample: the input `"1.2e3e4"` produces a Name token whose
text is `"1.2e34"` (the second `e` is dropped), and re-scanning that text
produces a Real token, so a produced Name token re-scans with a different
kind. -/
theorem claim1_roundTrip_counterexample :
    readToken [49, 46, 50, 101, 51, 101, 52] =
      .ok ⟨.nameTok, [49, 46, 50, 101, 51, 52]⟩ [] ∧
    readToken [49, 46, 50, 101, 51, 52] =
      .ok ⟨.realTok, [49, 46, 50, 101, 51, 52]⟩ [] ∧
    TokenType.nameTok ≠ TokenType.realTok := by decide

/-- C2 counterexample: the escape `"\7a"` inside a literal string is not
accepted with the continuation left unconsumed; the scanner reports the
formatted syntax error `unrecognized escape sequence: 7a)` for the input
`"(\7a)"`. -/
theorem claim2_octalEscape_counterexample :
    readToken [40, 92, 55, 97, 41] =
      .synError "unrecognized escape sequence" [55, 97, 41] := by decide

/-- C2 (amended): an octal digit after the backslash peeks the next two
codepoints unconditionally; when both are octal digits the escape consumes
them and appends the base-8 value of the three-digit sequence, when either
is not an octal digit the scanner raises the unrecognized-escape syntax
error, and when fewer than two codepoints remain the raw end-of-input
error escapes (after a parse failure check on the shorter sequence). -/
theorem claim2_octalEscape_amended :
    (∀ (depth : Nat) (acc rest : List Nat) (d a b : Nat), isOctalDigit d = true →
      isOctalDigit a = true → isOctalDigit b = true →
      readLiteralString depth acc (92 :: d :: a :: b :: rest) =
        readLiteralString depth (acc ++ [octalValue [d, a, b]]) rest) ∧
    (∀ (depth : Nat) (acc rest : List Nat) (d a b : Nat), isOctalDigit d = true →
      ¬(isOctalDigit a = true ∧ isOctalDigit b = true) →
      readLiteralString depth acc (92 :: d :: a :: b :: rest) =
        .synError "unrecognized escape sequence" [d, a, b]) ∧
    (∀ (depth : Nat) (acc : List Nat) (d a : Nat), isOctalDigit d = true →
      readLiteralString depth acc [92, d, a] =
        (if isOctalDigit a then ScanResult.eofSignal
         else .synError "unrecognized escape sequence" [d, a])) ∧
    (∀ (depth : Nat) (acc : List Nat) (d : Nat), isOctalDigit d = true →
      readLiteralString depth acc [92, d] = ScanResult.eofSignal) := by
  have descape : ∀ d : Nat, isOctalDigit d = true →
      d ≠ 110 ∧ d ≠ 114 ∧ d ≠ 116 ∧ d ≠ 98 ∧ d ≠ 102 ∧ d ≠ 92 ∧ d ≠ 40 ∧ d ≠ 41 ∧
      d ≠ 10 ∧ d ≠ 13 := by
    intro d hd
    have := isOctalDigit_iff.mp hd
    omega
  refine ⟨?_, ?_, ?_, ?_⟩
  · intro depth acc rest d a b hd ha hb
    obtain ⟨h1, h2, h3, h4, h5, h6, h7, h8, h9, h10⟩ := descape d hd
    rw [readLiteralString_backslash]
    simp [h1, h2, h3, h4, h5, h6, h7, h8, h9, h10, hd, ha, hb]
  · intro depth acc rest d a b hd hab
    obtain ⟨h1, h2, h3, h4, h5, h6, h7, h8, h9, h10⟩ := descape d hd
    have hab2 : (isOctalDigit a && isOctalDigit b) = false := by
      rcases ha : isOctalDigit a <;> rcases hb : isOctalDigit b <;> simp_all
    rw [readLiteralString_backslash]
    simp [h1, h2, h3, h4, h5, h6, h7, h8, h9, h10, hd, hab2]
  · intro depth acc d a hd
    obtain ⟨h1, h2, h3, h4, h5, h6, h7, h8, h9, h10⟩ := descape d hd
    rw [readLiteralString_backslash]
    rcases ha : isOctalDigit a with _ | _
    · simp [h1, h2, h3, h4, h5, h6, h7, h8, h9, h10, hd, ha]
    · simp [h1, h2, h3, h4, h5, h6, h7, h8, h9, h10, hd, ha]
  · intro depth acc d hd
    obtain ⟨h1, h2, h3, h4, h5, h6, h7, h8, h9, h10⟩ := descape d hd
    rw [readLiteralString_backslash]
    simp [h1, h2, h3, h4, h5, h6, h7, h8, h9, h10, hd]

theorem claim2_octalEscape_amended_witness :
    readLiteralString 0 [] [92, 55, 55, 55, 41] = readLiteralString 0 [511] [41] ∧
    readLiteralString 0 [] [92, 55, 97, 41, 41] =
      .synError "unrecognized escape sequence" [55, 97, 41] ∧
    readLiteralString 0 [] [92, 55, 97] = .synError "unrecognized escape sequence" [55, 97] ∧
    readLiteralString 0 [] [92, 55] = ScanResult.eofSignal := by
  refine ⟨?_, ?_, ?_, ?_⟩
  · have h := claim2_octalEscape_amended.1 0 [] [41] 55 55 55 (by decide) (by decide) (by decide)
    simpa using h
  · exact claim2_octalEscape_amended.2.1 0 [] [41] 55 97 41 (by decide) (by decide)
  · have h := claim2_octalEscape_amended.2.2.1 0 [] 55 97 (by decide)
    simpa using h
  · exact claim2_octalEscape_amended.2.2.2 0 [] 55 (by decide)

/-- C4 (amended): for every literal string whose body reaches end-of-input
with every backslash escape complete (its selector present, a
backslash-CR not cut off by end-of-input, octal escapes made of exactly
three octal digits) and no unbalanced close paren, next-token returns the
syntax error "unexpected end of file".  When end-of-input truncates an
escape the raw end-of-input signal escapes instead, a backslash-CR at
end-of-input crashes, and a malformed octal escape reports a different
syntax error. -/
theorem claim4_unterminatedString_amended (body : List Nat)
    (h : cleanEofBody 0 body = true) :
    readToken (40 :: body) = .synError "unexpected end of file" [] := by
  rw [readToken_lparen]
  exact readLiteralString_cleanEof body 0 [] h

theorem claim4_unterminatedString_amended_witness :
    cleanEofBody 0 [97, 98, 40, 99, 41] = true ∧
    readToken [40, 97, 98, 40, 99, 41] = .synError "unexpected end of file" [] :=
  ⟨by decide, claim4_unterminatedString_amended [97, 98, 40, 99, 41] (by decide)⟩

/-- C9 (amended): end-of-input inside a hex-string body ends the token
with the digits read so far and no error; end-of-input inside a base85
body ends the token with no unterminated error (the accumulated text is
passed to `ascii85.Decode` with a nil destination, which never rejects).
This contrasts with the literal string, which reports the
unexpected-end-of-file error whenever no escape is cut off by
end-of-input; end-of-input right after a backslash instead surfaces the
raw end-of-input signal. -/
theorem claim9_eofInHexBase85_amended :
    (∀ ds : List Nat, ds ≠ [] → (∀ c ∈ ds, isHexDigit c = true) →
      readToken (60 :: ds) = .ok ⟨.hexStringTok, ds⟩ []) ∧
    (∀ body : List Nat, (∀ c ∈ body, c ≠ 126) →
      readToken (60 :: 126 :: body) = .ok ⟨.base85StringTok, body⟩ []) ∧
    (∀ body : List Nat, cleanEofBody 0 body = true →
      readToken (40 :: body) = .synError "unexpected end of file" []) := by
  refine ⟨?_, ?_, ?_⟩
  · intro ds hne h
    match ds, hne with
    | d :: ds2, _ =>
      have hd2 := isHexDigit_iff.mp (h d (by simp))
      rw [readToken_lt_hex (by omega) ds2]
      have hc := readHexString_digits h [] []
      rw [List.append_nil, List.nil_append] at hc
      rw [hc]
      rfl
  · intro body h
    rw [readToken_lt_b85]
    have hc := readBase85String_consume h [] []
    rw [List.append_nil, List.nil_append] at hc
    rw [hc]
    exact finishBase85_ok body []
  · intro body h
    rw [readToken_lparen]
    exact readLiteralString_cleanEof body 0 [] h

theorem claim9_eofInHexBase85_amended_witness :
    readToken [60, 97, 98, 99] = .ok ⟨.hexStringTok, [97, 98, 99]⟩ [] ∧
    readToken [60, 126, 104, 105] = .ok ⟨.base85StringTok, [104, 105]⟩ [] ∧
    readToken [40, 120, 121] = .synError "unexpected end of file" [] :=
  ⟨claim9_eofInHexBase85_amended.1 [97, 98, 99] (by decide) (by decide),
   claim9_eofInHexBase85_amended.2.1 [104, 105] (by decide),
   claim9_eofInHexBase85_amended.2.2 [120, 121] (by decide)⟩

/-- C9 counterexample: the input `"(a\\"` reaches end-of-input before the
literal string closes, yet the scan returns the end-of-input signal rather
than an error, so an unterminated literal string is not always an
error. -/
theorem claim9_eofInHexBase85_counterexample :
    readToken [40, 97, 92] = ScanResult.eofSignal := by decide

/-- C4 counterexample: a literal string that reaches end-of-input before
any closing paren does not always produce the unexpected-end-of-file
syntax error: for the body `"\\"` the scan returns the end-of-input
signal instead. -/
theorem claim4_unterminatedString_counterexample :
    ¬ (∀ body : List Nat, body.contains 41 = false →
        readToken (40 :: body) = .synError "unexpected end of file" []) := by
  intro h
  have h2 := h [92] (by decide)
  rw [show readToken [40, 92] = ScanResult.eofSignal from by decide] at h2
  exact absurd h2 (by decide)

theorem validScalar_iff {c : Nat} :
    validScalar c = true ↔ c < 55296 ∨ (57344 ≤ c ∧ c ≤ 1114111) := by
  simp [validScalar]

theorem decodeRune_encode {c : Nat} (h : validScalar c = true) (s : List Nat) :
    decodeRune (utf8EncodeChar c ++ s) = (c, utf8Len c) := by
  have hiff := validScalar_iff.mp h
  by_cases h1 : c < 128
  · rw [utf8EncodeChar, if_pos h1, List.cons_append, List.nil_append]
    simp [decodeRune, utf8Len, h1]
  by_cases h2 : c < 2048
  · rw [utf8EncodeChar, if_neg h1, if_pos h2, List.cons_append, List.cons_append,
      List.nil_append]
    have e1 : ¬ (192 + c / 64 < 128) := by omega
    have e2 : ¬ (192 + c / 64 < 194) := by omega
    have e3 : 192 + c / 64 ≤ 223 := by omega
    have e4 : 128 ≤ 128 + c % 64 ∧ 128 + c % 64 ≤ 191 := by omega
    simp [decodeRune, e1, e2, e3, e4, utf8Len, h1, h2]
    omega
  by_cases h3 : c < 65536
  · rw [utf8EncodeChar, if_neg h1, if_neg h2, if_pos h, if_pos h3, List.cons_append,
      List.cons_append, List.cons_append, List.nil_append]
    have e1 : ¬ (224 + c / 4096 < 128) := by omega
    have e2 : ¬ (224 + c / 4096 < 194) := by omega
    have e3 : ¬ (224 + c / 4096 ≤ 223) := by omega
    have e4 : 224 + c / 4096 ≤ 239 := by omega
    have e5 : 128 ≤ 128 + c % 64 ∧ 128 + c % 64 ≤ 191 := by omega
    by_cases hb224 : c < 4096
    · have f1 : 224 + c / 4096 = 224 := by omega
      have f2 : 160 ≤ 128 + c / 64 % 64 ∧ 128 + c / 64 % 64 ≤ 191 := by omega
      simp [decodeRune, e1, e2, e3, e4, e5, f1, f2, utf8Len, h1, h2, h3]
      omega
    by_cases hb237 : 53248 ≤ c ∧ c < 57344
    · have hval : c < 55296 := by
        rcases hiff with hx | hx
        · exact hx
        · omega
      have f1 : ¬ (224 + c / 4096 = 224) := by omega
      have f2 : 224 + c / 4096 = 237 := by omega
      have f3 : 128 ≤ 128 + c / 64 % 64 ∧ 128 + c / 64 % 64 ≤ 159 := by omega
      simp [decodeRune, e1, e2, e3, e4, e5, f1, f2, f3, utf8Len, h1, h2, h3]
      omega
    · have f1 : ¬ (224 + c / 4096 = 224) := by omega
      have f2 : ¬ (224 + c / 4096 = 237) := by omega
      have f3 : 128 ≤ 128 + c / 64 % 64 ∧ 128 + c / 64 % 64 ≤ 191 := by omega
      simp [decodeRune, e1, e2, e3, e4, e5, f1, f2, f3, utf8Len, h1, h2, h3]
      omega
  · have hup : c ≤ 1114111 := by
      rcases hiff with hx | hx
      · omega
      · omega
    rw [utf8EncodeChar, if_neg h1, if_neg h2, if_pos h, if_neg h3, List.cons_append,
      List.cons_append, List.cons_append, List.cons_append, List.nil_append]
    have e1 : ¬ (240 + c / 262144 < 128) := by omega
    have e2 : ¬ (240 + c / 262144 < 194) := by omega
    have e3 : ¬ (240 + c / 262144 ≤ 223) := by omega
    have e4 : ¬ (240 + c / 262144 ≤ 239) := by omega
    have e5 : 240 + c / 262144 ≤ 244 := by omega
    have e6 : 128 ≤ 128 + c / 64 % 64 ∧ 128 + c / 64 % 64 ≤ 191 := by omega
    have e7 : 128 ≤ 128 + c % 64 ∧ 128 + c % 64 ≤ 191 := by omega
    by_cases hb240 : c < 262144
    · have f1 : 240 + c / 262144 = 240 := by omega
      have f2 : 144 ≤ 128 + c / 4096 % 64 ∧ 128 + c / 4096 % 64 ≤ 191 := by omega
      simp [decodeRune, e1, e2, e3, e4, e5, e6, e7, f1, f2, utf8Len, h1, h2, h3]
      omega
    by_cases hb244 : 1048576 ≤ c
    · have f1 : ¬ (240 + c / 262144 = 240) := by omega
      have f2 : 240 + c / 262144 = 244 := by omega
      have f3 : 128 ≤ 128 + c / 4096 % 64 ∧ 128 + c / 4096 % 64 ≤ 143 := by omega
      simp [decodeRune, e1, e2, e3, e4, e5, e6, e7, f1, f2, f3, utf8Len, h1, h2, h3]
      omega
    · have f1 : ¬ (240 + c / 262144 = 240) := by omega
      have f2 : ¬ (240 + c / 262144 = 244) := by omega
      have f3 : 128 ≤ 128 + c / 4096 % 64 ∧ 128 + c / 4096 % 64 ≤ 191 := by omega
      simp [decodeRune, e1, e2, e3, e4, e5, e6, e7, f1, f2, f3, utf8Len, h1, h2, h3]
      omega

theorem utf8EncodeChar_length {c : Nat} (h : validScalar c = true) :
    (utf8EncodeChar c).length = utf8Len c := by
  by_cases h1 : c < 128
  · simp [utf8EncodeChar, utf8Len, h1]
  by_cases h2 : c < 2048
  · simp [utf8EncodeChar, utf8Len, h1, h2]
  by_cases h3 : c < 65536
  · simp [utf8EncodeChar, utf8Len, h1, h2, h3, h]
  · simp [utf8EncodeChar, utf8Len, h1, h2, h3, h]

theorem utf8Len_le_four (c : Nat) : 1 ≤ utf8Len c ∧ utf8Len c ≤ 4 := by
  unfold utf8Len
  split_ifs <;> omega

theorem peekWindow_encoded {c : Nat} (pre tail2 : List Nat) (hv : validScalar c = true)
    (hne : c ≠ 65533)
    (hlen : pre.length + (utf8EncodeChar c ++ tail2).length ≤ 4096) :
    peekWindow (pre ++ (utf8EncodeChar c ++ tail2)) pre.length = .got c (utf8Len c) := by
  have hEnc : (utf8EncodeChar c).length = utf8Len c := utf8EncodeChar_length hv
  have hEnc14 := utf8Len_le_four c
  have hLen : (pre ++ (utf8EncodeChar c ++ tail2)).length =
      pre.length + (utf8Len c + tail2.length) := by
    simp [List.length_append, hEnc]
  have hTot : (pre ++ (utf8EncodeChar c ++ tail2)).length ≤ 4096 := by
    rw [hLen]
    rw [List.length_append, hEnc] at hlen
    omega
  unfold peekWindow
  have hlim : min (pre ++ (utf8EncodeChar c ++ tail2)).length bufSize =
      pre.length + (utf8Len c + tail2.length) := by
    rw [hLen] at hTot ⊢
    unfold bufSize
    omega
  rw [hlim]
  rw [if_pos (by omega)]
  rw [List.drop_left]
  have hk : pre.length + (utf8Len c + tail2.length) - pre.length =
      utf8Len c + tail2.length := by omega
  rw [hk]
  rw [List.take_append_eq_append_take, hEnc,
    List.take_of_length_le (by rw [hEnc]; omega)]
  rw [decodeRune_encode hv]
  simp [hne]

theorem peekRunesAux_encoded :
    ∀ (n : Nat) (cs pre acc : List Nat),
      (∀ c ∈ cs, validScalar c = true ∧ c ≠ 65533) →
      pre.length + (utf8Encode cs).length ≤ 4096 →
      peekRunesAux (pre ++ utf8Encode cs) n pre.length acc = some (acc ++ cs.take n) := by
  intro n
  induction n with
  | zero =>
    intro cs pre acc h hlen
    simp [peekRunesAux]
  | succ n ih =>
    intro cs pre acc h hlen
    match cs with
    | [] =>
      have hw : peekWindow (pre ++ utf8Encode []) pre.length = .noBytes := by
        unfold peekWindow
        rw [if_neg (by simp [utf8Encode, bufSize])]
      rw [peekRunesAux, hw]
      show peekRunesAux (pre ++ utf8Encode []) n pre.length acc =
        some (acc ++ List.take (n + 1) [])
      exact (ih [] pre acc (by simp) hlen).trans (by simp)
    | c :: cs2 =>
      have hc := h c (by simp)
      have hbs : utf8Encode (c :: cs2) = utf8EncodeChar c ++ utf8Encode cs2 := by
        simp [utf8Encode]
      rw [hbs] at hlen ⊢
      have hw := peekWindow_encoded pre (utf8Encode cs2) hc.1 hc.2
        (by rw [List.length_append, utf8EncodeChar_length hc.1] at hlen ⊢; omega)
      rw [peekRunesAux, hw]
      show peekRunesAux (pre ++ (utf8EncodeChar c ++ utf8Encode cs2)) n
          (pre.length + utf8Len c) (acc ++ [c]) =
        some (acc ++ List.take (n + 1) (c :: cs2))
      have hoff : pre.length + utf8Len c = (pre ++ utf8EncodeChar c).length := by
        simp [List.length_append, utf8EncodeChar_length hc.1]
      have hassoc : pre ++ (utf8EncodeChar c ++ utf8Encode cs2) =
          (pre ++ utf8EncodeChar c) ++ utf8Encode cs2 := by
        simp [List.append_assoc]
      rw [hoff, hassoc]
      have := ih cs2 (pre ++ utf8EncodeChar c) (acc ++ [c])
        (fun x hx => h x (by simp [hx]))
        (by
          simp only [List.length_append, utf8EncodeChar_length hc.1]
          rw [List.length_append, utf8EncodeChar_length hc.1] at hlen
          omega)
      rw [this]
      simp

/-- C3 counterexample: `PeekRunes` does not fail when fewer than `n`
codepoints remain: for the two-codepoint input `"ab"` and `n = 3` it
returns the two available runes with a nil error instead of an error. -/
theorem claim3_peekRunes_counterexample :
    ¬ (∀ (n : Nat) (cs : List Nat), 1 ≤ n → cs.length < n →
        (peekRunes n (utf8Encode cs)).isNone = true) := by
  intro h
  have h2 := h 3 [97, 98] (by omega) (by simp)
  rw [show peekRunes 3 (utf8Encode [97, 98]) = some [97, 98] from by decide] at h2
  exact absurd h2 (by decide)

/-- C3 (amended): over a well-formed UTF-8 source (scalar codepoints other
than U+FFFD, within the 4096-byte `bufio` peek buffer), `PeekRunes(n)` for
`n ≥ 1` returns the next `min n remaining` codepoints with a nil error and
without advancing the read position (the model consumes nothing); in
particular when fewer than `n` codepoints remain it returns the shorter
rune slice rather than an error. -/
theorem claim3_peekRunes_amended (n : Nat) (cs : List Nat)
    (hv : ∀ c ∈ cs, validScalar c = true ∧ c ≠ 65533)
    (hlen : (utf8Encode cs).length ≤ 4096) (hn : 1 ≤ n) :
    peekRunes n (utf8Encode cs) = some (cs.take n) := by
  unfold peekRunes
  rw [if_neg (by omega)]
  have h := peekRunesAux_encoded n cs [] [] hv (by simpa using hlen)
  simpa using h

theorem claim3_peekRunes_amended_witness :
    peekRunes 2 (utf8Encode [104, 8364]) = some [104, 8364] ∧
    peekRunes 5 (utf8Encode [104, 8364]) = some [104, 8364] :=
  ⟨by
    have h := claim3_peekRunes_amended 2 [104, 8364] (by decide) (by decide) (by decide)
    simpa using h,
   by
    have h := claim3_peekRunes_amended 5 [104, 8364] (by decide) (by decide) (by decide)
    simpa using h⟩

theorem readNumeric_dot (acc rest : List Nat) :
    readNumeric acc (46 :: rest) = readReal (acc ++ [46]) rest := by
  rw [readNumeric.eq_2, if_neg (by simp [isDelim]), if_neg (by simp [isDigit]), if_pos rfl]

theorem readNumeric_hash {acc : List Nat} {h0 : Nat} (hh : acc.head? = some h0)
    (h45 : h0 ≠ 45) (rest : List Nat) :
    readNumeric acc (35 :: rest) = readRadix (acc ++ [35]) rest := by
  rw [readNumeric.eq_2, if_neg (by simp [isDelim]), if_neg (by simp [isDigit]),
    if_neg (by omega), if_pos rfl, hh]
  simp [h45]

theorem readReal_exit {acc : List Nat} {l : Nat} (hl : acc.getLast? = some l)
    (h101 : l ≠ 101) (h69 : l ≠ 69) :
    readReal acc [] = .ok ⟨.realTok, acc⟩ [] := by
  rw [readReal.eq_def, hl]
  simp [h101, h69]

theorem readRadix_exit {acc : List Nat} {l : Nat} (hl : acc.getLast? = some l)
    (h35 : l ≠ 35) :
    readRadix acc [] = .ok ⟨.radixTok, acc⟩ [] := by
  rw [readRadix.eq_def, hl]
  simp [h35]

theorem readName_ok_type {acc input : List Nat} {t : Token} {rem : List Nat}
    (h : readName acc input = .ok t rem) : t.type = .nameTok := by
  rw [readName_eq] at h
  obtain ⟨h1, -⟩ := ScanResult.ok.inj h
  rw [← h1]

theorem readReal_ok_cases :
    ∀ (input acc : List Nat) {t : Token} {rem : List Nat},
      readReal acc input = .ok t rem → t.type = .realTok ∨ t.type = .nameTok := by
  intro input
  induction input with
  | nil =>
    intro acc t rem h
    rw [readReal.eq_def] at h
    cases hl : acc.getLast? with
    | none => rw [hl] at h; exact ScanResult.noConfusion h
    | some l =>
      rw [hl] at h
      simp only at h
      split_ifs at h
      all_goals first
        | exact ScanResult.noConfusion h
        | (obtain ⟨h1, -⟩ := ScanResult.ok.inj h; exact Or.inl (by rw [← h1]))
  | cons c rest ih =>
    intro acc t rem h
    rw [readReal.eq_def] at h
    cases hl : acc.getLast? with
    | none => rw [hl] at h; exact ScanResult.noConfusion h
    | some l =>
      rw [hl] at h
      simp only at h
      split_ifs at h
      all_goals first
        | exact ScanResult.noConfusion h
        | (obtain ⟨h1, -⟩ := ScanResult.ok.inj h; exact Or.inl (by rw [← h1]))
        | exact Or.inr (readName_ok_type h)
        | exact ih _ h

theorem readRadix_ok_cases :
    ∀ (input acc : List Nat) {t : Token} {rem : List Nat},
      readRadix acc input = .ok t rem → t.type = .radixTok ∨ t.type = .nameTok := by
  intro input
  induction input with
  | nil =>
    intro acc t rem h
    rw [readRadix.eq_def] at h
    cases hl : acc.getLast? with
    | none => rw [hl] at h; exact ScanResult.noConfusion h
    | some l =>
      rw [hl] at h
      simp only at h
      split_ifs at h
      all_goals first
        | exact ScanResult.noConfusion h
        | (obtain ⟨h1, -⟩ := ScanResult.ok.inj h; exact Or.inl (by rw [← h1]))
  | cons c rest ih =>
    intro acc t rem h
    rw [readRadix.eq_def] at h
    cases hl : acc.getLast? with
    | none => rw [hl] at h; exact ScanResult.noConfusion h
    | some l =>
      rw [hl] at h
      simp only at h
      split_ifs at h
      all_goals first
        | exact ScanResult.noConfusion h
        | (obtain ⟨h1, -⟩ := ScanResult.ok.inj h; exact Or.inl (by rw [← h1]))
        | exact Or.inr (readName_ok_type h)
        | exact ih _ h

theorem readNumeric_ok_cases :
    ∀ (input acc : List Nat) {t : Token} {rem : List Nat},
      readNumeric acc input = .ok t rem →
      t.type = .intTok ∨ t.type = .realTok ∨ t.type = .radixTok ∨ t.type = .nameTok := by
  intro input
  induction input with
  | nil =>
    intro acc t rem h
    rw [readNumeric.eq_1] at h
    obtain ⟨h1, -⟩ := ScanResult.ok.inj h
    exact Or.inl (by rw [← h1])
  | cons c rest ih =>
    intro acc t rem h
    rw [readNumeric.eq_2] at h
    by_cases hdel : isDelim c
    · rw [if_pos hdel] at h
      obtain ⟨h1, -⟩ := ScanResult.ok.inj h
      exact Or.inl (by rw [← h1])
    rw [if_neg hdel] at h
    by_cases hdig : isDigit c
    · rw [if_pos hdig] at h
      exact ih _ h
    rw [if_neg hdig] at h
    by_cases h46 : c = 46
    · rw [if_pos h46] at h
      rcases readReal_ok_cases _ _ h with h2 | h2
      · exact Or.inr (Or.inl h2)
      · exact Or.inr (Or.inr (Or.inr h2))
    rw [if_neg h46] at h
    by_cases h35 : c = 35
    · rw [if_pos h35] at h
      cases hh : acc.head? with
      | none =>
        rw [hh] at h
        exact ScanResult.noConfusion h
      | some h0 =>
        rw [hh] at h
        replace h : (if h0 = 45 then
            ScanResult.synError "radix number cannot have a negative base" []
          else readRadix (acc ++ [c]) rest) = ScanResult.ok t rem := h
        by_cases h45 : h0 = 45
        · rw [if_pos h45] at h
          exact ScanResult.noConfusion h
        · rw [if_neg h45] at h
          rcases readRadix_ok_cases _ _ h with h2 | h2
          · exact Or.inr (Or.inr (Or.inl h2))
          · exact Or.inr (Or.inr (Or.inr h2))
    rw [if_neg h35] at h
    exact Or.inr (Or.inr (Or.inr (readName_ok_type h)))

theorem readHexString_ok_type :
    ∀ (input acc : List Nat) {t : Token} {rem : List Nat},
      readHexString acc input = .ok t rem → t.type = .hexStringTok := by
  intro input
  induction input with
  | nil =>
    intro acc t rem h
    rw [readHexString.eq_1] at h
    obtain ⟨h1, -⟩ := ScanResult.ok.inj h
    rw [← h1]
  | cons c rest ih =>
    intro acc t rem h
    rw [readHexString.eq_2] at h
    split_ifs at h
    all_goals first
      | exact ScanResult.noConfusion h
      | (obtain ⟨h1, -⟩ := ScanResult.ok.inj h; rw [← h1])
      | exact ih _ h

theorem readBase85String_ok_type :
    ∀ (input acc : List Nat) {t : Token} {rem : List Nat},
      readBase85String acc input = .ok t rem → t.type = .base85StringTok := by
  have hfin : ∀ (acc rem2 : List Nat) {t : Token} {rem : List Nat},
      finishBase85 acc rem2 = .ok t rem → t.type = .base85StringTok := by
    intro acc rem2 t rem h
    rw [finishBase85_ok] at h
    obtain ⟨h1, -⟩ := ScanResult.ok.inj h
    rw [← h1]
  intro input
  induction input with
  | nil =>
    intro acc t rem h
    exact hfin _ _ h
  | cons c rest ih =>
    intro acc t rem h
    rw [readBase85String.eq_2] at h
    split_ifs at h
    all_goals first
      | exact ScanResult.noConfusion h
      | exact hfin _ _ h
      | exact ih _ h

theorem Digits.append {a b : List Nat} (ha : Digits a) (hb : Digits b) : Digits (a ++ b) := by
  intro c hc
  rcases List.mem_append.mp hc with hc | hc
  · exact ha c hc
  · exact hb c hc

theorem Digits.single {d : Nat} (hd : isDigit d = true) : Digits [d] := by
  intro c hc
  simp at hc
  subst hc
  exact hd

theorem Digits.nil : Digits [] := by
  intro c hc
  simp at hc

theorem contains_of_mem {xs : List Nat} {a : Nat} (h : a ∈ xs) : xs.contains a = true := by
  simp [List.contains]
  exact h

theorem getLast?_mem {xs : List Nat} {x : Nat} (h : xs.getLast? = some x) : x ∈ xs := by
  obtain ⟨hh, rfl⟩ := List.mem_getLast?_eq_getLast (l := xs) (x := x) h
  exact List.getLast_mem hh

theorem realAcc_ne_nil {xs : List Nat} (h : RealAcc xs) : xs ≠ [] := by
  obtain ⟨m, i, f, e, rfl, -, -, -, -⟩ := h
  simp

theorem realAcc_append_digit {xs : List Nat} (h : RealAcc xs) {d : Nat}
    (hd : isDigit d = true) : RealAcc (xs ++ [d]) := by
  obtain ⟨m, i, f, e, rfl, hm, hi, hf, he⟩ := h
  rcases he with rfl | ⟨mk, sg, ds, rfl, hmk, hsg, hds⟩
  · exact ⟨m, i, f ++ [d], [], by simp, hm, hi, hf.append (Digits.single hd), Or.inl rfl⟩
  · exact ⟨m, i, f, mk :: (sg ++ (ds ++ [d])), by simp, hm, hi, hf,
      Or.inr ⟨mk, sg, ds ++ [d], rfl, hmk, hsg, hds.append (Digits.single hd)⟩⟩

theorem RealAcc.append_marker {xs : List Nat} (h : RealAcc xs) {mk : Nat}
    (hmk : mk = 101 ∨ mk = 69)
    (hcon : (xs.contains 101 || xs.contains 69) = false) : RealAcc (xs ++ [mk]) := by
  obtain ⟨m, i, f, e, rfl, hm, hi, hf, he⟩ := h
  rcases he with rfl | ⟨mk2, sg, ds, rfl, hmk2, hsg, hds⟩
  · exact ⟨m, i, f, [mk], by simp, hm, hi, hf,
      Or.inr ⟨mk, [], [], by simp, hmk, Or.inl rfl, Digits.nil⟩⟩
  · exfalso
    have hmem : mk2 ∈ m ++ i ++ 46 :: (f ++ (mk2 :: (sg ++ ds))) := by simp
    rw [Bool.or_eq_false_iff] at hcon
    rcases hmk2 with rfl | rfl
    · rw [contains_of_mem hmem] at hcon
      exact Bool.noConfusion hcon.1
    · rw [contains_of_mem hmem] at hcon
      exact Bool.noConfusion hcon.2

theorem RealAcc.append_minus {xs : List Nat} (h : RealAcc xs) {l : Nat}
    (hl : xs.getLast? = some l) (hml : l = 101 ∨ l = 69) : RealAcc (xs ++ [45]) := by
  obtain ⟨m, i, f, e, rfl, hm, hi, hf, he⟩ := h
  rcases he with rfl | ⟨mk, sg, ds, rfl, hmk, hsg, hds⟩
  · exfalso
    rcases List.eq_nil_or_concat f with rfl | ⟨f2, x, rfl⟩
    · rw [show m ++ i ++ 46 :: (([] : List Nat) ++ []) = (m ++ i) ++ [46] from by simp,
        List.getLast?_concat] at hl
      obtain rfl := (Option.some.inj hl).symm
      omega
    · rw [show m ++ i ++ 46 :: (f2.concat x ++ []) = (m ++ i ++ 46 :: f2) ++ [x] from by simp,
        List.getLast?_concat] at hl
      obtain rfl := (Option.some.inj hl).symm
      have hx := hf l (by simp)
      rw [isDigit_iff] at hx
      omega
  · rcases List.eq_nil_or_concat (sg ++ ds) with hsd | ⟨t2, x, hsd⟩
    · rw [hsd]
      refine ⟨m, i, f, [mk, 45], by simp, hm, hi, hf,
        Or.inr ⟨mk, [45], [], by simp, hmk, Or.inr rfl, Digits.nil⟩⟩
    · exfalso
      rw [show m ++ i ++ 46 :: (f ++ (mk :: (sg ++ ds))) =
          (m ++ i ++ 46 :: (f ++ (mk :: t2))) ++ [x] from by simp [hsd],
        List.getLast?_concat] at hl
      obtain rfl := (Option.some.inj hl).symm
      have hx : l ∈ sg ++ ds := by rw [hsd]; simp
      rcases List.mem_append.mp hx with hx | hx
      · rcases hsg with rfl | rfl
        · simp at hx
        · simp at hx
          omega
      · have := hds l hx
        rw [isDigit_iff] at this
        omega

theorem radixAcc_ne_nil {xs : List Nat} (h : RadixAcc xs) : xs ≠ [] := by
  obtain ⟨i, a, rfl, -, -, -⟩ := h
  simp

theorem RadixAcc.append_alnum {xs : List Nat} (h : RadixAcc xs) {d : Nat}
    (hd : isAlnum d = true) : RadixAcc (xs ++ [d]) := by
  obtain ⟨i, a, rfl, hne, hi, ha⟩ := h
  refine ⟨i, a ++ [d], by simp, hne, hi, ?_⟩
  intro c hc
  rcases List.mem_append.mp hc with hc | hc
  · exact ha c hc
  · simp at hc
    subst hc
    exact hd

theorem intShape_append_digit {xs : List Nat} (h : IntShape xs) {d : Nat}
    (hd : isDigit d = true) : IntShape (xs ++ [d]) := by
  obtain ⟨s, ds, rfl, hs, hds⟩ := h
  exact ⟨s, ds ++ [d], by simp, hs, hds.append (Digits.single hd)⟩

theorem RealAcc.of_intShape_dot {xs : List Nat} (h : IntShape xs) : RealAcc (xs ++ [46]) := by
  obtain ⟨s, ds, rfl, hs, hds⟩ := h
  rcases hs with rfl | hs
  · exact ⟨[45], ds, [], [], by simp, Or.inr rfl, hds, Digits.nil, Or.inl rfl⟩
  · refine ⟨[], s :: ds, [], [], by simp, Or.inl rfl, ?_, Digits.nil, Or.inl rfl⟩
    intro c hc
    rcases List.mem_cons.mp hc with rfl | hc
    · exact hs
    · exact hds c hc

theorem RadixAcc.of_intShape_hash {xs : List Nat} (h : IntShape xs) {h0 : Nat}
    (hh : xs.head? = some h0) (h45 : h0 ≠ 45) : RadixAcc (xs ++ [35]) := by
  obtain ⟨s, ds, rfl, hs, hds⟩ := h
  rw [List.head?_cons] at hh
  obtain rfl := Option.some.inj hh
  rcases hs with rfl | hs
  · exact absurd rfl h45
  · refine ⟨s :: ds, [], by simp, by simp, ?_, fun c hc => by simp at hc⟩
    intro c hc
    rcases List.mem_cons.mp hc with rfl | hc
    · exact hs
    · exact hds c hc

theorem radixShape_of_radixAcc {acc : List Nat} {l : Nat} (hacc : RadixAcc acc)
    (hl : acc.getLast? = some l) (h35 : l ≠ 35) : RadixShape acc := by
  obtain ⟨i, a, rfl, hne, hi, ha⟩ := hacc
  refine ⟨i, a, rfl, hne, hi, ha, ?_⟩
  rintro rfl
  rw [show i ++ 35 :: ([] : List Nat) = i ++ [35] from rfl, List.getLast?_concat] at hl
  exact h35 (Option.some.inj hl).symm

/-- Soundness of the real sub-scanner: starting from a reachable real
buffer, a Real token it returns carries a real-shaped text. -/
theorem readReal_real_sound :
    ∀ (input acc : List Nat) {t : Token} {rem : List Nat}, RealAcc acc →
      readReal acc input = .ok t rem → t.type = .realTok → RealShape t.value := by
  intro input
  induction input with
  | nil =>
    intro acc t rem hacc h htype
    obtain ⟨l, hl⟩ := Option.isSome_iff_exists.mp (List.getLast?_isSome.mpr
      (realAcc_ne_nil hacc))
    rw [readReal.eq_def, hl] at h
    simp only at h
    by_cases hte : (decide (l = 101) || decide (l = 69)) = true
    · rw [if_pos hte] at h
      exact ScanResult.noConfusion h
    · rw [if_neg hte] at h
      simp only [Bool.or_eq_true, decide_eq_true_eq] at hte
      obtain ⟨h1, -⟩ := ScanResult.ok.inj h
      rw [← h1]
      refine ⟨hacc, ?_⟩
      intro l2 hl2
      rw [hl] at hl2
      obtain rfl := Option.some.inj hl2
      exact ⟨fun hc => hte (Or.inl hc), fun hc => hte (Or.inr hc)⟩
  | cons c rest ih =>
    intro acc t rem hacc h htype
    obtain ⟨l, hl⟩ := Option.isSome_iff_exists.mp (List.getLast?_isSome.mpr
      (realAcc_ne_nil hacc))
    rw [readReal.eq_def, hl] at h
    simp only at h
    by_cases hdel : isDelim c = true
    · rw [if_pos hdel] at h
      by_cases hte : (decide (l = 101) || decide (l = 69)) = true
      · rw [if_pos hte] at h
        exact ScanResult.noConfusion h
      · rw [if_neg hte] at h
        simp only [Bool.or_eq_true, decide_eq_true_eq] at hte
        obtain ⟨h1, -⟩ := ScanResult.ok.inj h
        rw [← h1]
        refine ⟨hacc, ?_⟩
        intro l2 hl2
        rw [hl] at hl2
        obtain rfl := Option.some.inj hl2
        exact ⟨fun hc => hte (Or.inl hc), fun hc => hte (Or.inr hc)⟩
    rw [if_neg hdel] at h
    by_cases hmk : c = 101 ∨ c = 69
    · rw [if_pos hmk] at h
      by_cases hcon : (acc.contains 101 || acc.contains 69) = true
      · rw [if_pos hcon] at h
        rw [readName_ok_type h] at htype
        exact TokenType.noConfusion htype
      · rw [if_neg hcon] at h
        exact ih _ (hacc.append_marker hmk (Bool.eq_false_iff.mpr hcon)) h htype
    rw [if_neg hmk] at h
    by_cases h45 : c = 45
    · rw [if_pos h45] at h
      by_cases hte : (decide (l = 101) || decide (l = 69)) = true
      · rw [if_pos hte] at h
        simp only [Bool.or_eq_true, decide_eq_true_eq] at hte
        subst h45
        exact ih _ (hacc.append_minus hl hte) h htype
      · rw [if_neg hte] at h
        rw [readName_ok_type h] at htype
        exact TokenType.noConfusion htype
    rw [if_neg h45] at h
    by_cases hdig : isDigit c = true
    · rw [if_pos hdig] at h
      exact ih _ (realAcc_append_digit hacc hdig) h htype
    · rw [if_neg hdig] at h
      rw [readName_ok_type h] at htype
      exact TokenType.noConfusion htype

/-- Soundness of the radix sub-scanner: starting from a reachable radix
buffer, a Radix token it returns carries a radix-shaped text. -/
theorem readRadix_radix_sound :
    ∀ (input acc : List Nat) {t : Token} {rem : List Nat}, RadixAcc acc →
      readRadix acc input = .ok t rem → t.type = .radixTok → RadixShape t.value := by
  intro input
  induction input with
  | nil =>
    intro acc t rem hacc h htype
    obtain ⟨l, hl⟩ := Option.isSome_iff_exists.mp (List.getLast?_isSome.mpr
      (radixAcc_ne_nil hacc))
    rw [readRadix.eq_def, hl] at h
    simp only at h
    by_cases h35 : l = 35
    · rw [if_pos h35] at h
      exact ScanResult.noConfusion h
    · rw [if_neg h35] at h
      obtain ⟨h1, -⟩ := ScanResult.ok.inj h
      rw [← h1]
      exact radixShape_of_radixAcc hacc hl h35
  | cons c rest ih =>
    intro acc t rem hacc h htype
    obtain ⟨l, hl⟩ := Option.isSome_iff_exists.mp (List.getLast?_isSome.mpr
      (radixAcc_ne_nil hacc))
    rw [readRadix.eq_def, hl] at h
    simp only at h
    by_cases hdel : isDelim c = true
    · rw [if_pos hdel] at h
      by_cases h35 : l = 35
      · rw [if_pos h35] at h
        exact ScanResult.noConfusion h
      · rw [if_neg h35] at h
        obtain ⟨h1, -⟩ := ScanResult.ok.inj h
        rw [← h1]
        exact radixShape_of_radixAcc hacc hl h35
    rw [if_neg hdel] at h
    by_cases han : isAlnum c = true
    · rw [if_pos han] at h
      exact ih _ (hacc.append_alnum han) h htype
    · rw [if_neg han] at h
      rw [readName_ok_type h] at htype
      exact TokenType.noConfusion htype

/-- Soundness of the integer sub-scanner: starting from a reachable integer
buffer, Integer, Real and Radix tokens carry texts of their shapes. -/
theorem readNumeric_sound :
    ∀ (input acc : List Nat) {t : Token} {rem : List Nat}, IntShape acc →
      readNumeric acc input = .ok t rem →
      (t.type = .intTok → IntShape t.value) ∧
      (t.type = .realTok → RealShape t.value) ∧
      (t.type = .radixTok → RadixShape t.value) := by
  intro input
  induction input with
  | nil =>
    intro acc t rem hacc h
    rw [readNumeric.eq_1] at h
    obtain ⟨h1, -⟩ := ScanResult.ok.inj h
    rw [← h1]
    exact ⟨fun _ => hacc, fun ht => TokenType.noConfusion ht, fun ht => TokenType.noConfusion ht⟩
  | cons c rest ih =>
    intro acc t rem hacc h
    rw [readNumeric.eq_2] at h
    by_cases hdel : isDelim c = true
    · rw [if_pos hdel] at h
      obtain ⟨h1, -⟩ := ScanResult.ok.inj h
      rw [← h1]
      exact ⟨fun _ => hacc, fun ht => TokenType.noConfusion ht, fun ht => TokenType.noConfusion ht⟩
    rw [if_neg hdel] at h
    by_cases hdig : isDigit c = true
    · rw [if_pos hdig] at h
      exact ih _ (intShape_append_digit hacc hdig) h
    rw [if_neg hdig] at h
    by_cases h46 : c = 46
    · rw [if_pos h46] at h
      subst h46
      refine ⟨?_, ?_, ?_⟩
      · intro ht
        rcases readReal_ok_cases _ _ h with h2 | h2
        · rw [ht] at h2; exact TokenType.noConfusion h2
        · rw [ht] at h2; exact TokenType.noConfusion h2
      · intro ht
        exact readReal_real_sound _ _ (RealAcc.of_intShape_dot hacc) h ht
      · intro ht
        rcases readReal_ok_cases _ _ h with h2 | h2
        · rw [ht] at h2; exact TokenType.noConfusion h2
        · rw [ht] at h2; exact TokenType.noConfusion h2
    rw [if_neg h46] at h
    by_cases h35 : c = 35
    · rw [if_pos h35] at h
      cases hh : acc.head? with
      | none =>
        rw [hh] at h
        exact ScanResult.noConfusion h
      | some h0 =>
        rw [hh] at h
        replace h : (if h0 = 45 then
            ScanResult.synError "radix number cannot have a negative base" []
          else readRadix (acc ++ [c]) rest) = ScanResult.ok t rem := h
        by_cases h45 : h0 = 45
        · rw [if_pos h45] at h
          exact ScanResult.noConfusion h
        · rw [if_neg h45] at h
          subst h35
          refine ⟨?_, ?_, ?_⟩
          · intro ht
            rcases readRadix_ok_cases _ _ h with h2 | h2
            · rw [ht] at h2; exact TokenType.noConfusion h2
            · rw [ht] at h2; exact TokenType.noConfusion h2
          · intro ht
            rcases readRadix_ok_cases _ _ h with h2 | h2
            · rw [ht] at h2; exact TokenType.noConfusion h2
            · rw [ht] at h2; exact TokenType.noConfusion h2
          · intro ht
            exact readRadix_radix_sound _ _ (RadixAcc.of_intShape_hash hacc hh h45) h ht
    rw [if_neg h35] at h
    have hn := readName_ok_type h
    exact ⟨fun ht => by rw [ht] at hn; exact TokenType.noConfusion hn,
      fun ht => by rw [ht] at hn; exact TokenType.noConfusion hn,
      fun ht => by rw [ht] at hn; exact TokenType.noConfusion hn⟩

/-- Every token the literal-string sub-scanner returns is a LitString. -/
theorem readLiteralString_ok_type :
    ∀ (input : List Nat), ∀ (depth : Nat) (acc : List Nat) {t : Token} {rem : List Nat},
      readLiteralString depth acc input = .ok t rem → t.type = .litStringTok := by
  refine strongListInd _ ?_
  intro input IH depth acc t rem h
  cases input with
  | nil => exact ScanResult.noConfusion h
  | cons c rest =>
    by_cases h92 : c = 92
    · subst h92
      cases rest with
      | nil =>
        replace h : ScanResult.eofSignal = ScanResult.ok t rem := h
        exact ScanResult.noConfusion h
      | cons e rest2 =>
        by_cases h13 : e = 13
        · subst h13
          rw [readLiteralString_cr] at h
          cases rest2 with
          | nil =>
            replace h : ScanResult.crash = ScanResult.ok t rem := h
            exact ScanResult.noConfusion h
          | cons f rest3 =>
            rw [if_neg (by simp)] at h
            by_cases hf : f = 10
            · subst hf
              rw [if_pos (by simp)] at h
              replace h : readLiteralString depth acc rest3 = ScanResult.ok t rem := h
              exact IH rest3 (by simp; omega) depth acc h
            · rw [if_neg (by simp [hf])] at h
              exact IH (f :: rest3) (by simp) depth acc h
        by_cases hoct : isOctalDigit e = true
        · rw [readLiteralString_octal depth acc hoct] at h
          by_cases hall : ((e :: rest2.take 2).all isOctalDigit) = true
          · rw [if_pos hall] at h
            cases rest2 with
            | nil =>
              replace h : ScanResult.eofSignal = ScanResult.ok t rem := h
              exact ScanResult.noConfusion h
            | cons a rest3 =>
              cases rest3 with
              | nil =>
                replace h : ScanResult.eofSignal = ScanResult.ok t rem := h
                exact ScanResult.noConfusion h
              | cons b rest4 =>
                replace h : readLiteralString depth (acc ++ [octalValue (e :: a :: b :: [])])
                    rest4 = ScanResult.ok t rem := h
                exact IH rest4 (by simp; omega) depth _ h
          · rw [if_neg hall] at h
            exact ScanResult.noConfusion h
        · obtain ⟨acc2, hstep⟩ :=
            readLiteralString_esc_simple depth acc h13 (Bool.eq_false_iff.mpr hoct) rest2
          rw [hstep] at h
          exact IH rest2 (by simp; omega) depth acc2 h
    · rw [readLiteralString_cons] at h
      by_cases h40 : c = 40
      · rw [if_pos h40] at h
        exact IH rest (by simp) _ _ h
      rw [if_neg h40] at h
      by_cases h41 : c = 41
      · rw [if_pos h41] at h
        by_cases hdep : depth < 1
        · rw [if_pos hdep] at h
          obtain ⟨h1, -⟩ := ScanResult.ok.inj h
          rw [← h1]
        · rw [if_neg hdep] at h
          exact IH rest (by simp) _ _ h
      rw [if_neg h41] at h
      rw [if_neg h92] at h
      exact IH rest (by simp) _ _ h

/-- Top-level soundness: Integer, Real and Radix tokens produced by
next-token carry texts of their respective shapes. -/
theorem readToken_sound :
    ∀ (input : List Nat), ∀ {t : Token} {rem : List Nat},
      readToken input = .ok t rem →
      (t.type = .intTok → IntShape t.value) ∧
      (t.type = .realTok → RealShape t.value) ∧
      (t.type = .radixTok → RadixShape t.value) := by
  refine strongListInd _ ?_
  intro input IH t rem h
  cases input with
  | nil => exact ScanResult.noConfusion h
  | cons c rest =>
    by_cases hdel : isDelim c = true
    · rw [readToken_delim hdel] at h
      exact IH rest (by simp) h
    by_cases h37 : c = 37
    · subst h37
      rw [readToken_comment, readTokenComment_skipComment] at h
      cases hsc : skipComment rest with
      | none =>
        rw [hsc] at h
        exact ScanResult.noConfusion h
      | some rest2 =>
        rw [hsc] at h
        exact IH rest2 (by have := skipComment_length hsc; simp; omega) h
    by_cases h46 : c = 46
    · subst h46
      rw [readToken_dot] at h
      refine ⟨?_, ?_, ?_⟩
      · intro ht
        rcases readReal_ok_cases _ _ h with h2 | h2
        · rw [ht] at h2; exact TokenType.noConfusion h2
        · rw [ht] at h2; exact TokenType.noConfusion h2
      · intro ht
        exact readReal_real_sound _ _
          ⟨[], [], [], [], by simp, Or.inl rfl, Digits.nil, Digits.nil, Or.inl rfl⟩ h ht
      · intro ht
        rcases readReal_ok_cases _ _ h with h2 | h2
        · rw [ht] at h2; exact TokenType.noConfusion h2
        · rw [ht] at h2; exact TokenType.noConfusion h2
    by_cases hnum : c = 45 ∨ isDigit c = true
    · rw [readToken_numeric hnum] at h
      exact readNumeric_sound _ _ ⟨c, [], rfl, hnum, Digits.nil⟩ h
    by_cases h40 : c = 40
    · subst h40
      rw [readToken_lparen] at h
      have ht := readLiteralString_ok_type _ _ _ h
      exact ⟨fun h2 => by rw [h2] at ht; exact TokenType.noConfusion ht,
        fun h2 => by rw [h2] at ht; exact TokenType.noConfusion ht,
        fun h2 => by rw [h2] at ht; exact TokenType.noConfusion ht⟩
    by_cases h60 : c = 60
    · subst h60
      cases rest with
      | nil =>
        replace h : ScanResult.crash = ScanResult.ok t rem := h
        exact ScanResult.noConfusion h
      | cons n rest2 =>
        by_cases hn : n = 126
        · subst hn
          rw [readToken_lt_b85] at h
          have ht := readBase85String_ok_type _ _ h
          exact ⟨fun h2 => by rw [h2] at ht; exact TokenType.noConfusion ht,
            fun h2 => by rw [h2] at ht; exact TokenType.noConfusion ht,
            fun h2 => by rw [h2] at ht; exact TokenType.noConfusion ht⟩
        · rw [readToken_lt_hex hn] at h
          have ht := readHexString_ok_type _ _ h
          exact ⟨fun h2 => by rw [h2] at ht; exact TokenType.noConfusion ht,
            fun h2 => by rw [h2] at ht; exact TokenType.noConfusion ht,
            fun h2 => by rw [h2] at ht; exact TokenType.noConfusion ht⟩
    · have hdig : isDigit c = false := by
        rcases hd : isDigit c with _ | _
        · rfl
        · exact absurd (Or.inr hd) hnum
      have h45 : c ≠ 45 := fun hc => hnum (Or.inl hc)
      rw [readToken_name (Bool.eq_false_iff.mpr hdel) hdig h37 h46 h45 h40 h60] at h
      have ht := readName_ok_type h
      exact ⟨fun h2 => by rw [h2] at ht; exact TokenType.noConfusion ht,
        fun h2 => by rw [h2] at ht; exact TokenType.noConfusion ht,
        fun h2 => by rw [h2] at ht; exact TokenType.noConfusion ht⟩

theorem contains_false_of_forall {xs : List Nat} {a : Nat} (h : ∀ c ∈ xs, c ≠ a) :
    xs.contains a = false := by
  by_cases hm : a ∈ xs
  · exact absurd rfl (h a hm)
  · simp [List.contains]
    exact hm

theorem realPrefix_noMarkers {m i f : List Nat} (hm : m = [] ∨ m = [45]) (hi : Digits i)
    (hf : Digits f) :
    (((m ++ i ++ [46]) ++ f).contains 101 || ((m ++ i ++ [46]) ++ f).contains 69) = false := by
  have hall : ∀ c ∈ (m ++ i ++ [46]) ++ f, c ≠ 101 ∧ c ≠ 69 := by
    intro c hc
    simp only [List.mem_append, List.mem_singleton] at hc
    rcases hc with ((hc | hc) | hc) | hc
    · rcases hm with rfl | rfl
      · simp at hc
      · simp at hc
        omega
    · have := hi c hc
      rw [isDigit_iff] at this
      omega
    · omega
    · have := hf c hc
      rw [isDigit_iff] at this
      omega
  rw [Bool.or_eq_false_iff]
  exact ⟨contains_false_of_forall (fun c hc => (hall c hc).1),
    contains_false_of_forall (fun c hc => (hall c hc).2)⟩

/-- One exponent-marker step of `readReal`. -/
theorem readReal_step_marker {acc : List Nat} (hacc : acc ≠ []) {mk : Nat}
    (hmk : mk = 101 ∨ mk = 69) (hcon : (acc.contains 101 || acc.contains 69) = false)
    (rest : List Nat) :
    readReal acc (mk :: rest) = readReal (acc ++ [mk]) rest := by
  obtain ⟨l, hl⟩ := Option.isSome_iff_exists.mp (List.getLast?_isSome.mpr hacc)
  rw [readReal.eq_def, hl]
  simp only
  rw [if_neg (by rcases hmk with rfl | rfl <;> decide), if_pos hmk, if_neg (by rw [hcon]; simp)]

/-- One exponent-sign step of `readReal`. -/
theorem readReal_step_minus {acc : List Nat} {l : Nat} (hl : acc.getLast? = some l)
    (hml : l = 101 ∨ l = 69) (rest : List Nat) :
    readReal acc (45 :: rest) = readReal (acc ++ [45]) rest := by
  rw [readReal.eq_def, hl]
  simp only
  rw [if_neg (by decide), if_neg (by omega : ¬ ((45 : Nat) = 101 ∨ (45 : Nat) = 69)),
    if_pos trivial, if_pos (by rcases hml with rfl | rfl <;> simp)]

/-- `readReal` consumes a whole exponent part by accumulating it. -/
theorem readReal_expPart {e : List Nat} (he : ExpPart e) {acc : List Nat} (hacc : acc ≠ [])
    (hcon : (acc.contains 101 || acc.contains 69) = false) (input : List Nat) :
    readReal acc (e ++ input) = readReal (acc ++ e) input := by
  rcases he with rfl | ⟨mk, sg, ds, rfl, hmk, hsg, hds⟩
  · simp
  · rcases hsg with rfl | rfl
    · rw [show (mk :: (([] : List Nat) ++ ds)) ++ input = mk :: (ds ++ input) from by simp,
        readReal_step_marker hacc hmk hcon, readReal_digits hds (by simp)]
      simp
    · rw [show (mk :: (([45] : List Nat) ++ ds)) ++ input = mk :: 45 :: (ds ++ input) from by
          simp,
        readReal_step_marker hacc hmk hcon,
        readReal_step_minus (by simp : (acc ++ [mk]).getLast? = some mk) hmk,
        readReal_digits hds (by simp)]
      simp

/-- Fallback step of `readNumeric` into `readName`. -/
theorem readNumeric_name_step {c : Nat} (hdel : isDelim c = false) (hdig : isDigit c = false)
    (h46 : c ≠ 46) (h35 : c ≠ 35) (acc rest : List Nat) :
    readNumeric acc (c :: rest) = readName (acc ++ [c]) rest := by
  rw [readNumeric.eq_2, if_neg (by simp [hdel]), if_neg (by simp [hdig]), if_neg h46,
    if_neg h35]

/-- Fallback step of `readReal` into `readName`. -/
theorem readReal_name_step {acc : List Nat} (hacc : acc ≠ []) {c : Nat}
    (hdel : isDelim c = false) (hmk : ¬ (c = 101 ∨ c = 69)) (h45 : c ≠ 45)
    (hdig : isDigit c = false) (rest : List Nat) :
    readReal acc (c :: rest) = readName (acc ++ [c]) rest := by
  obtain ⟨l, hl⟩ := Option.isSome_iff_exists.mp (List.getLast?_isSome.mpr hacc)
  rw [readReal.eq_def, hl]
  simp only
  rw [if_neg (by simp [hdel]), if_neg hmk, if_neg h45, if_neg (by simp [hdig])]

/-- Fallback step of `readRadix` into `readName`. -/
theorem readRadix_name_step {acc : List Nat} (hacc : acc ≠ []) {c : Nat}
    (hdel : isDelim c = false) (han : isAlnum c = false) (rest : List Nat) :
    readRadix acc (c :: rest) = readName (acc ++ [c]) rest := by
  obtain ⟨l, hl⟩ := Option.isSome_iff_exists.mp (List.getLast?_isSome.mpr hacc)
  rw [readRadix.eq_def, hl]
  simp only
  rw [if_neg (by simp [hdel]), if_neg (by simp [han])]

/-- `readName` on delimiter-free input consumes everything. -/
theorem readName_all {w : List Nat} (hw : NoDelims w) (acc : List Nat) :
    readName acc w = .ok ⟨.nameTok, acc ++ w⟩ [] := by
  induction w generalizing acc with
  | nil => simp [readName]
  | cons c cs ih =>
    rw [readName.eq_2, if_neg (by simp [hw c (by simp)]), ih (fun x hx => hw x (by simp [hx]))]
    simp

/-- Dispatch into `readReal` for a text beginning with an optional sign,
digits, and a dot. -/
theorem readReal_entry {m i : List Nat} (hm : m = [] ∨ m = [45]) (hi : Digits i)
    (tail : List Nat) :
    readToken (m ++ i ++ 46 :: tail) = readReal (m ++ i ++ [46]) tail := by
  rcases hm with rfl | rfl
  · cases i with
    | nil =>
      simp only [List.nil_append]
      rw [readToken_dot]
    | cons i0 i' =>
      simp only [List.nil_append, List.cons_append]
      rw [readToken_numeric (Or.inr (hi i0 (by simp))),
        readNumeric_digits (fun c hc => hi c (by simp [hc])) [i0], readNumeric_dot]
      rfl
  · simp only [List.cons_append, List.nil_append]
    rw [readToken_numeric (Or.inl rfl), readNumeric_digits hi [45], readNumeric_dot]
    rfl

/-- Dispatch into `readRadix` for a text beginning with a nonempty digit
base and `#`. -/
theorem readRadix_entry {i : List Nat} (hne : i ≠ []) (hi : Digits i) (tail : List Nat) :
    readToken (i ++ 35 :: tail) = readRadix (i ++ [35]) tail := by
  cases i with
  | nil => exact absurd rfl hne
  | cons i0 i' =>
    simp only [List.cons_append]
    rw [readToken_numeric (Or.inr (hi i0 (by simp))),
      readNumeric_digits (fun c hc => hi c (by simp [hc])) [i0],
      readNumeric_hash (show ([i0] ++ i').head? = some i0 from rfl)
        (by have := isDigit_iff.mp (hi i0 (by simp)); omega)]
    rfl

/-- `readReal` started just past the dot of a real-shaped text runs to
end-of-input and returns the whole text as a Real token. -/
theorem readReal_full_consume {m i f e : List Nat} (hm : m = [] ∨ m = [45]) (hi : Digits i)
    (hf : Digits f) (he : ExpPart e) (hlast : NotMarkerLast (m ++ i ++ 46 :: (f ++ e)))
    {acc0 : List Nat} (h0 : acc0 = m ++ i ++ [46]) :
    readReal acc0 (f ++ e) = .ok ⟨.realTok, m ++ i ++ 46 :: (f ++ e)⟩ [] := by
  subst h0
  have hexp := readReal_expPart he (show ((m ++ i ++ [46]) ++ f : List Nat) ≠ [] from by simp)
    (realPrefix_noMarkers hm hi hf) []
  rw [List.append_nil] at hexp
  rw [readReal_digits hf (by simp), hexp]
  obtain ⟨l, hl⟩ := Option.isSome_iff_exists.mp (List.getLast?_isSome.mpr
    (show ((m ++ i ++ [46]) ++ f) ++ e ≠ [] from by simp))
  have hlv : (m ++ i ++ 46 :: (f ++ e)).getLast? = some l := by
    rw [show m ++ i ++ 46 :: (f ++ e) = ((m ++ i ++ [46]) ++ f) ++ e from by simp]
    exact hl
  have hne := hlast l hlv
  rw [readReal_exit hl hne.1 hne.2]
  simp

/-- Rescanning an integer-shaped text yields the same Integer token. -/
theorem rescan_int {v : List Nat} (h : IntShape v) : readToken v = .ok ⟨.intTok, v⟩ [] := by
  obtain ⟨s, ds, rfl, hs, hds⟩ := h
  have hrun := readNumeric_digits hds [s] []
  rw [List.append_nil] at hrun
  rw [readToken_numeric hs, hrun, readNumeric.eq_1]
  simp

/-- Rescanning a real-shaped text yields the same Real token. -/
theorem rescan_real {v : List Nat} (h : RealShape v) : readToken v = .ok ⟨.realTok, v⟩ [] := by
  obtain ⟨⟨m, i, f, e, rfl, hm, hi, hf, he⟩, hlast⟩ := h
  rw [readReal_entry hm hi (f ++ e), readReal_full_consume hm hi hf he hlast rfl]

/-- Rescanning a radix-shaped text yields the same Radix token. -/
theorem rescan_radix {v : List Nat} (h : RadixShape v) :
    readToken v = .ok ⟨.radixTok, v⟩ [] := by
  obtain ⟨i, a, rfl, hne, hi, ha, hane⟩ := h
  obtain ⟨a2, x, rfl⟩ : ∃ a2 x, a = a2 ++ [x] := by
    rcases List.eq_nil_or_concat a with rfl | ⟨a2, x, hx⟩
    · exact absurd rfl hane
    · exact ⟨a2, x, by simpa using hx⟩
  have hx35 : x ≠ 35 := by
    have hx := ha x (by simp)
    intro h35
    subst h35
    exact absurd hx (by decide)
  have hrun := readRadix_alnums ha (show (i ++ [35] : List Nat) ≠ [] from by simp) []
  rw [List.append_nil] at hrun
  rw [readRadix_entry hne hi, hrun,
    readRadix_exit (show ((i ++ [35]) ++ (a2 ++ [x])).getLast? = some x from by
      rw [show (i ++ [35]) ++ (a2 ++ [x]) = ((i ++ [35]) ++ a2) ++ [x] from by simp,
        List.getLast?_concat]) hx35]
  simp

/-- Rescanning a name-shaped text yields the same Name token. -/
theorem rescan_name {v : List Nat} (h : NameShape v) : readToken v = .ok ⟨.nameTok, v⟩ [] := by
  rcases h with h1 | h2 | h3 | h4
  · obtain ⟨c, w, rfl, hdel, hdig, h37, h46, h45, h40, h60, hw⟩ := h1
    rw [readToken_name hdel hdig h37 h46 h45 h40 h60, readName_all hw]
    simp
  · obtain ⟨s, ds, c, w, rfl, hs, hds, hdel, hdig, h46, h35, hw⟩ := h2
    rw [readToken_numeric hs, readNumeric_digits hds [s],
      readNumeric_name_step hdel hdig h46 h35, readName_all hw]
    simp
  · obtain ⟨r, c, w, rfl, hr, hdel, hdig, h101, h69, h45, hw⟩ := h3
    obtain ⟨m, i, f, e, rfl, hm, hi, hf, he⟩ := hr
    rw [show (m ++ i ++ 46 :: (f ++ e)) ++ c :: w = m ++ i ++ 46 :: (f ++ (e ++ c :: w))
        from by simp,
      readReal_entry hm hi, readReal_digits hf (by simp),
      readReal_expPart he (by simp) (realPrefix_noMarkers hm hi hf),
      readReal_name_step (by simp) hdel (fun hc => hc.elim h101 h69) h45 hdig,
      readName_all hw]
    simp
  · obtain ⟨r, c, w, rfl, hr, hdel, han, hw⟩ := h4
    obtain ⟨i, a, rfl, hne, hi, ha⟩ := hr
    rw [show (i ++ 35 :: a) ++ c :: w = i ++ 35 :: (a ++ c :: w) from by simp,
      readRadix_entry hne hi, readRadix_alnums ha (by simp),
      readRadix_name_step (by simp) hdel han, readName_all hw]
    simp

/-- C1 (corrected): a token scanned back from its text is the same token
whenever its type is Integer, Real or Radix; a Name token scans back to
itself whenever its text has one of the shapes the scanner can reach
without dropping a codepoint (the real sub-scanner drops the codepoint it
just consumed when it hands off to the name sub-scanner on a second
exponent marker or a misplaced minus, so those Name tokens need not
round-trip). -/
theorem claim1_roundTrip_amended :
    (∀ (input : List Nat) (t : Token) (rest : List Nat), readToken input = .ok t rest →
        t.type = .intTok ∨ t.type = .realTok ∨ t.type = .radixTok →
        readToken t.value = .ok t []) ∧
    (∀ (input : List Nat) (t : Token) (rest : List Nat), readToken input = .ok t rest →
        t.type = .nameTok → NameShape t.value → readToken t.value = .ok t []) := by
  constructor
  · intro input t rest h htype
    obtain ⟨hint, hreal, hradix⟩ := readToken_sound input h
    obtain ⟨ty, val⟩ := t
    replace htype : ty = TokenType.intTok ∨ ty = TokenType.realTok ∨
        ty = TokenType.radixTok := htype
    rcases htype with rfl | rfl | rfl
    · exact rescan_int (hint rfl)
    · exact rescan_real (hreal rfl)
    · exact rescan_radix (hradix rfl)
  · intro input t rest h htype hshape
    obtain ⟨ty, val⟩ := t
    replace htype : ty = TokenType.nameTok := htype
    subst htype
    exact rescan_name hshape

theorem claim1_roundTrip_amended_witness :
    readToken [45, 49, 50] = .ok ⟨.intTok, [45, 49, 50]⟩ [] ∧
    readToken [64, 64] = .ok ⟨.nameTok, [64, 64]⟩ [] :=
  ⟨claim1_roundTrip_amended.1 [45, 49, 50] ⟨.intTok, [45, 49, 50]⟩ [] (by decide)
      (Or.inl rfl),
   claim1_roundTrip_amended.2 [64, 64] ⟨.nameTok, [64, 64]⟩ [] (by decide) rfl
      (Or.inl ⟨64, [64], rfl, by decide, by decide, by decide, by decide, by decide,
        by decide, by decide, by intro c hc; rw [List.mem_singleton] at hc; subst hc; rfl⟩)⟩
